import Mathlib

/-!
# Attendance Tracker — verification of the reconciliation engine

Shallow embedding of `src/code.js` (Member Attendance Tracking System).

One event response sheet ("Responses") is modelled as an `EventRecordSource`:
a display name (the file name without the " Member Sheet" suffix), the
per-event default point value (cell F2) and the list of rows (column A =
name, column B = email, column D = additional points; an empty D cell is
`none`).  The catalog of sheets reachable from the Sheets folder and its
subfolders is a `List EventSource`.

Spreadsheet cell values are strings or numbers; point values are modelled
as `Int` and the optional bonus cell as `Option Int` (the code treats an
empty bonus cell as `0`: `defaultPoints + (additionalPoints != "" ?
additionalPoints : 0)` and `Number("") = 0`).
-/

set_option linter.unusedVariables false

namespace AttendanceTracker

/-- JavaScript's `String.prototype.toLowerCase()` as used throughout
code.js: lowercase every character.  (Defined character-wise so that it
evaluates inside the kernel; extensionally this is `String.toLower`.) -/
def lowerCase (s : String) : String :=
  ⟨s.data.map Char.toLower⟩

/-- One response row of an event sheet: column A (name), column B (email),
column D (additional points; `none` for an empty cell). -/
structure AttendanceRecord where
  name : String
  email : String
  bonus : Option Int
deriving Repr, DecidableEq

/-- One event response sheet: its display name, the default point value in
cell F2, and its rows starting at row 2. -/
structure EventSource where
  displayName : String
  defaultPoints : Int
  records : List AttendanceRecord
deriving Repr, DecidableEq

/-- Points contributed by one row: `defaultPoints + (additionalPoints != ""
? additionalPoints : 0)` (code.js line 360). -/
def recordPoints (defaultPoints : Int) (r : AttendanceRecord) : Int :=
  defaultPoints + r.bonus.getD 0

/-- The prefix of a row list up to (excluding) the first row with an empty
email — the rows the `getResponsesFromEvent` loop actually visits. -/
def readRows (rows : List AttendanceRecord) : List AttendanceRecord :=
  rows.takeWhile (fun r => lowerCase r.email ≠ "")

/-- The rows `getResponsesFromEvent` actually reads: the loop at code.js
lines 347-364 stops at the first row whose (lowercased) email is empty. -/
def readRecords (s : EventSource) : List AttendanceRecord :=
  readRows s.records

/-- The in-memory response set built by `getResponsesFromEvent` /
`updateMemberPoints`: a JS object keyed by lowercased email holding the
name and the running points.  Keys keep their insertion position; a write
to an existing key overwrites the value in place. -/
abbrev ResponseSet := List (String × String × Int)

/-- `names[email] = name; points[email] = p` on a JS object: if the key is
present its value is overwritten in place, otherwise the pair is appended. -/
def upsertLast (m : ResponseSet) (e n : String) (p : Int) : ResponseSet :=
  match m with
  | [] => [(e, n, p)]
  | (e', n', p') :: rest =>
    if e' = e then (e, n, p) :: rest else (e', n', p') :: upsertLast rest e n p

/-- `getResponsesFromEvent` (code.js lines 333-367): walk the rows from row
2, stop at the first empty email, lowercase the email, and store
`names[email] = name`, `points[email] = defaultPoints + bonus` (a repeated
email within the same sheet overwrites the earlier entry). -/
def getResponsesFromEvent (s : EventSource) : ResponseSet :=
  go s.records []
where
  go : List AttendanceRecord → ResponseSet → ResponseSet
  | [], acc => acc
  | r :: rs, acc =>
    if lowerCase r.email = "" then acc
    else go rs (upsertLast acc (lowerCase r.email) r.name (recordPoints s.defaultPoints r))

/-- Whether the response set already has an entry for this email
(`responseSet.names[property] == undefined` test, negated). -/
def hasEmail (m : ResponseSet) (e : String) : Bool :=
  m.any (fun x => x.1 = e)

/-- `responseSet.points[property] = responseSet.points[property] + info.points[property]`:
add `p` to the entry with key `e` (the name is untouched). -/
def addPoints (m : ResponseSet) (e : String) (p : Int) : ResponseSet :=
  match m with
  | [] => []
  | (e', n', p') :: rest =>
    if e' = e then (e', n', p' + p) :: rest else (e', n', p') :: addPoints rest e p

/-- Merging one property of an event's response set into the accumulated
one (the body of the `for (const property in info.names)` loop, code.js
lines 248-259): new keys are inserted, existing keys accumulate points. -/
def mergeEntry (acc : ResponseSet) (x : String × String × Int) : ResponseSet :=
  if hasEmail acc x.1 then addPoints acc x.1 x.2.2 else acc ++ [x]

/-- Merging a whole event's response set into the accumulated one. -/
def mergeInfo (acc info : ResponseSet) : ResponseSet :=
  info.foldl mergeEntry acc

/-- The `while (ids.length > 0)` loop of `updateMemberPoints` (code.js
lines 235-260) after the pop order has been applied: `responseSet` starts
as `null` and the first event's response set is taken wholesale. -/
def mergeAll : Option ResponseSet → List ResponseSet → ResponseSet
  | none, [] => []
  | some acc, [] => acc
  | none, info :: rest => mergeAll (some info) rest
  | some acc, info :: rest => mergeAll (some (mergeInfo acc info)) rest

/-- The response set produced by `updateMemberPoints` for a catalog of
event sheets.  The ids are pushed in enumeration order and consumed with
`ids.pop()`, so the sheets are processed in reverse enumeration order. -/
def aggregate (sources : List EventSource) : ResponseSet :=
  mergeAll none ((sources.map getResponsesFromEvent).reverse)

/-- Display tier of a member row (the row background colors of
`updateMemberPoints`). -/
inductive Tier where
  | Base          -- DEFAULT_MEMBER_COLOR
  | Active        -- ACTIVE_MEMBER_COLOR
  | Involved      -- INVOLVED_MEMBER_COLOR
  | MostInvolved  -- MOST_INVOLVED_MEMBER_COLOR
deriving Repr, DecidableEq

/-- The threshold compare of code.js lines 282-290. -/
def baseTier (total : Int) : Tier :=
  if total < 3 then Tier.Base
  else if total < 15 then Tier.Active
  else Tier.Involved

/-- The running max / top-earner index collection of code.js lines
295-307: `max` starts at 0, a strictly larger total resets the index list,
an equal total is appended. -/
def maxLoop : List Int → Int → List Nat → Nat → Int × List Nat
  | [], mx, idxs, _ => (mx, idxs)
  | t :: ts, mx, idxs, i =>
    if mx < t then maxLoop ts t [i] (i + 1)
    else if t = mx then maxLoop ts mx (idxs ++ [i]) (i + 1)
    else maxLoop ts mx idxs (i + 1)

/-- One ledger row of the Member Points sheet: column A (name), column C
(email, hidden), column B (total), and the row's background color. -/
structure LedgerEntry where
  name : String
  email : String
  totalPoints : Int
  tier : Tier
deriving Repr, DecidableEq

/-- Walk the response set rows in order, giving row `i` its base tier, or
Most-Involved when the final max is at least 15 and `i` is a collected
top-earner index (code.js lines 273-318). -/
def tagTiers (mx : Int) (idxs : List Nat) : Nat → ResponseSet → List LedgerEntry
  | _, [] => []
  | i, x :: rest =>
    { name := x.2.1, email := x.1, totalPoints := x.2.2,
      tier := if 15 ≤ mx ∧ i ∈ idxs then Tier.MostInvolved else baseTier x.2.2 }
      :: tagTiers mx idxs (i + 1) rest

/-- Tier assignment over a finished response set: the writing loop plus the
Most-Involved restyling pass of `updateMemberPoints`. -/
def assignTiers (m : ResponseSet) : List LedgerEntry :=
  let r := maxLoop (m.map (fun x => x.2.2)) 0 [] 0
  tagTiers r.1 r.2 0 m

/-- The ledger contents produced by one `updateMemberPoints` run (before
the purely presentational sort by name). -/
def ledgerOf (sources : List EventSource) : List LedgerEntry :=
  assignTiers (aggregate sources)

/-!
## Identity-correction and lookup operations

Each Control-Panel operation is modelled as a function from its two form
inputs and the current catalog to the new catalog paired with the optional
error message it writes to its error cell.  (The parallel "Form Responses
1" sheet that the correction loops also rewrite is a mirror of the
"Responses" sheet and carries no separate state of its own, so only the
"Responses" columns are modelled; the Member Points recompute that each
successful correction triggers is `ledgerOf` of the returned catalog.)
-/

/-- The "Responses"-sheet loop of `replaceEmailInSheet` (code.js lines
456-471): walk rows from row 2, stop at the first empty (lowercased)
email, and overwrite emails equal to `o` with `n`.  `n` is the
already-lowercased new email `fixEmail` passes in. -/
def replaceEmailRows (n o : String) : List AttendanceRecord → List AttendanceRecord
  | [] => []
  | r :: rs =>
    if lowerCase r.email = "" then r :: rs
    else (if lowerCase r.email = o then { r with email := n } else r)
      :: replaceEmailRows n o rs

/-- `replaceEmailInSheet` applied to one event sheet. -/
def replaceEmailInSheet (n o : String) (s : EventSource) : EventSource :=
  { s with records := replaceEmailRows n o s.records }

/-- `fixEmail` (code.js lines 375-421): lowercase both form inputs, reject
when either is empty (writing "One of the fields is empty" to J3 and
touching no sheet), otherwise rewrite every sheet and recompute. -/
def fixEmail (oldEmail newEmail : String) (sources : List EventSource) :
    List EventSource × Option String :=
  let o := lowerCase oldEmail
  let n := lowerCase newEmail
  if o = "" ∨ n = "" then (sources, some "One of the fields is empty")
  else (sources.map (replaceEmailInSheet n o), none)

/-- The "Responses"-sheet loop of `replaceNameInSheet` (code.js lines
562-578): walk rows from row 2, stop at the first empty (lowercased) name,
and overwrite names whose lowercase form equals `oldNameLower` with the
raw `newName`. -/
def replaceNameRows (newName oldNameLower : String) :
    List AttendanceRecord → List AttendanceRecord
  | [] => []
  | r :: rs =>
    if lowerCase r.name = "" then r :: rs
    else (if lowerCase r.name = oldNameLower then { r with name := newName } else r)
      :: replaceNameRows newName oldNameLower rs

/-- `replaceNameInSheet` applied to one event sheet. -/
def replaceNameInSheet (newName oldNameLower : String) (s : EventSource) : EventSource :=
  { s with records := replaceNameRows newName oldNameLower s.records }

/-- `fixName` (code.js lines 480-527): reject when either raw input is
empty, otherwise rewrite every sheet (matching on the lowercased old name)
and recompute. -/
def fixName (oldName newName : String) (sources : List EventSource) :
    List EventSource × Option String :=
  if oldName = "" ∨ newName = "" then (sources, some "One of the fields is empty")
  else (sources.map (replaceNameInSheet newName (lowerCase oldName)), none)

/-- One step of the `deleteNameInSheet` "Responses" loop (code.js lines
671-687), index-faithful: read row `i` (missing cells read as empty);
stop at an empty name; on a name-and-email match call `deleteRow(i)` —
which shifts the following row into position `i` — and then increment `i`
anyway, so the shifted row is never examined.  `fuel` bounds the iteration
count; the caller passes `rows.length + 1`, which the loop can never
exhaust since `i` grows by one per step and the list never grows. -/
def deleteRowsLoop (delName delEmail : String) :
    Nat → Nat → List AttendanceRecord → List AttendanceRecord
  | 0, _, rows => rows
  | fuel + 1, i, rows =>
    match rows[i]? with
    | none => rows
    | some r =>
      if lowerCase r.name = "" then rows
      else if lowerCase r.name = delName ∧ lowerCase r.email = delEmail then
        deleteRowsLoop delName delEmail fuel (i + 1) (rows.eraseIdx i)
      else deleteRowsLoop delName delEmail fuel (i + 1) rows

/-- `deleteNameInSheet` applied to one event sheet (argument order as in
the source: email first). -/
def deleteNameInSheet (delEmail delName : String) (s : EventSource) : EventSource :=
  { s with records := deleteRowsLoop delName delEmail (s.records.length + 1) 0 s.records }

/-- `deleteName` (code.js lines 587-633): lowercase both form inputs,
reject when either is empty, otherwise delete the member from every sheet
and recompute. -/
def deleteName (delName delEmail : String) (sources : List EventSource) :
    List EventSource × Option String :=
  let dn := lowerCase delName
  let de := lowerCase delEmail
  if dn = "" ∨ de = "" then (sources, some "One of the fields is empty")
  else (sources.map (deleteNameInSheet de dn), none)

/-- `getNameFromSheet` (code.js lines 798-843): scan the "Responses" rows
from row 2, stop at the first empty (lowercased) name, and on the first
row whose lowercased name equals `user` return the event label (display
name, dash, points, singular/plural "Member Point(s)" keyed on `points ==
1`) together with `Number(D) + Number(F2)`; `undefined` (here `none`) when
no row matches. -/
def getNameFromSheet (user : String) (s : EventSource) : Option (String × Int) :=
  go s.records
where
  go : List AttendanceRecord → Option (String × Int)
  | [] => none
  | r :: rs =>
    if lowerCase r.name = "" then none
    else if user = lowerCase r.name then
      let point := r.bonus.getD 0 + s.defaultPoints
      some (s.displayName ++ " - " ++ toString point ++
        (if point = 1 then " Member Point" else " Member Points"), point)
    else go rs

/-- The sheet-scanning loops of `findUser` (code.js lines 719-756),
collecting each attended event's `(label, points)` pair in catalog order
together with the running point total and event count. -/
def findUserLoop (user : String) : List EventSource → List (String × Int) × Int × Nat
  | [] => ([], 0, 0)
  | s :: rest =>
    match getNameFromSheet user s with
    | some ev =>
      let r := findUserLoop user rest
      (ev :: r.1, ev.2 + r.2.1, r.2.2 + 1)
    | none => findUserLoop user rest

/-- `findUser` (code.js lines 696-795): lowercase the queried name, reject
an empty query without scanning, otherwise return the breakdown, the
total, and the matched-event count (used only to pick a font size). -/
def findUser (user : String) (sources : List EventSource) :
    Option (List (String × Int) × Int × Nat) :=
  let u := lowerCase user
  if u = "" then none
  else some (findUserLoop u sources)

/-!
## The `updateMemberPoints` run as a state transition

For the atomicity claim the run is modelled over a catalog of source
handles, each either readable or not (`SpreadsheetApp.openById` throwing),
together with the ledger sheet contents visible before the run.  The
source order of events in `updateMemberPoints` is: the sheet is cleared
(line 215) *before* any event sheet is opened (lines 235-260), and the new
rows are written only after every event sheet has been read (lines
273-318).  An unreadable sheet therefore aborts the run after the clear
and before any write.
-/

/-- A catalog slot: an event sheet that opens normally, or one whose
`SpreadsheetApp.openById` call throws. -/
inductive SourceHandle where
  | readable (s : EventSource)
  | unreadable
deriving Repr, DecidableEq

/-- Read every handle of the catalog; `none` as soon as any sheet cannot
be opened. -/
def catalogSources : List SourceHandle → Option (List EventSource)
  | [] => some []
  | SourceHandle.readable s :: rest => (catalogSources rest).map (s :: ·)
  | SourceHandle.unreadable :: _ => none

/-- One `updateMemberPoints` run: the externally visible ledger rows after
the run, paired with whether the run aborted with an error.  The previous
rows `prev` are cleared first; on a read failure the run stops with the
sheet still cleared; otherwise the freshly aggregated ledger is written. -/
def updateMemberPointsRun (catalog : List SourceHandle) (prev : List LedgerEntry) :
    List LedgerEntry × Bool :=
  let cleared : List LedgerEntry := []
  match catalogSources catalog with
  | none => (cleared, true)
  | some sources => (ledgerOf sources, false)

-- Sanity checks on concrete data.
/-!
## Lookup helpers and the option-sum monoid

The aggregate is characterised per email: the entry stored for an email is
described through `entryFor`, and totals combine across sheets with the
"optional sum" `oadd` (absent + absent = absent, otherwise add).
-/

/-- First entry of a response set carrying the given (normalized) email. -/
def entryFor (m : ResponseSet) (e : String) : Option (String × String × Int) :=
  m.find? (fun x => x.1 == e)

/-- Points stored for an email, when present. -/
def pointsFor (m : ResponseSet) (e : String) : Option Int :=
  (entryFor m e).map (fun x => x.2.2)

/-- Name stored for an email, when present. -/
def nameFor (m : ResponseSet) (e : String) : Option String :=
  (entryFor m e).map (fun x => x.2.1)

/-- The emails of a response set, in insertion order. -/
def keys (m : ResponseSet) : List String :=
  m.map (fun x => x.1)

/-- Sum of the point values of a response set. -/
def pointsSum (m : ResponseSet) : Int :=
  (m.map (fun x => x.2.2)).sum

/-- Optional sum: the per-source point contributions of an email combine
with `none` as "did not appear". -/
def oadd : Option Int → Option Int → Option Int
  | none, y => y
  | some p, none => some p
  | some p, some q => some (p + q)

/-- Combined contribution of a list of per-source contributions. -/
def combine (xs : List (Option Int)) : Option Int :=
  xs.foldr oadd none

/-- The last row of a row list whose lowercased email is `e`, if any (the
row whose values a repeated JS-object write leaves in place). -/
def lastFor (e : String) : List AttendanceRecord → Option AttendanceRecord
  | [] => none
  | r :: rows =>
    match lastFor e rows with
    | some r' => some r'
    | none => if lowerCase r.email = e then some r else none

/-- The index positions (offset by `i`) at which a total list carries the
value `M` — the contents of the `indexes` array once the running max has
settled at `M`. -/
def tiesFrom : List Int → Int → Nat → List Nat
  | [], _, _ => []
  | t :: ts, M, i =>
    if t = M then i :: tiesFrom ts M (i + 1) else tiesFrom ts M (i + 1)

/-- First ledger row carrying the given (normalized) email. -/
def ledgerEntryFor (L : List LedgerEntry) (e : String) : Option LedgerEntry :=
  L.find? (fun ent => ent.email == e)

/-- The effect of `replaceEmailInSheet` on a single row whose email is
read: a row whose lowercased email is `a` gets its email cell overwritten
with `b`, any other row is untouched. -/
def renameEmail (a b : String) (r : AttendanceRecord) : AttendanceRecord :=
  if lowerCase r.email = a then { r with email := b } else r

/-- The prefix of a row list up to (excluding) the first row with an empty
name — the rows the name-keyed loops (`getNameFromSheet`,
`deleteNameInSheet`, `replaceNameInSheet`) actually visit. -/
def readNameRows (rows : List AttendanceRecord) : List AttendanceRecord :=
  rows.takeWhile (fun r => lowerCase r.name ≠ "")

-- Sanity checks on concrete data.
example :
    getResponsesFromEvent ⟨"E", 1, [⟨"Alice", "A@x.com", none⟩, ⟨"Bob", "b@x.com", some 2⟩]⟩
      = [("a@x.com", "Alice", 1), ("b@x.com", "Bob", 3)] := by decide

example :
    ledgerOf [⟨"E", 1, [⟨"Alice", "a@x.com", none⟩]⟩, ⟨"F", 2, [⟨"Al", "A@X.com", some 13⟩]⟩]
      = [{ name := "Al", email := "a@x.com", totalPoints := 16, tier := Tier.MostInvolved }] := by
  decide

@[simp] theorem oadd_none_left (x : Option Int) : oadd none x = x := rfl

@[simp] theorem oadd_none_right (x : Option Int) : oadd x none = x := by
  cases x <;> rfl

theorem oadd_comm (x y : Option Int) : oadd x y = oadd y x := by
  cases x <;> cases y <;> simp [oadd, Int.add_comm]

theorem oadd_assoc (x y z : Option Int) : oadd (oadd x y) z = oadd x (oadd y z) := by
  cases x <;> cases y <;> cases z <;> simp [oadd, Int.add_assoc]

@[simp] theorem combine_nil : combine [] = none := rfl

@[simp] theorem combine_cons (x : Option Int) (xs : List (Option Int)) :
    combine (x :: xs) = oadd x (combine xs) := rfl

theorem combine_perm {l₁ l₂ : List (Option Int)} (h : l₁.Perm l₂) :
    combine l₁ = combine l₂ := by
  induction h with
  | nil => rfl
  | cons x _ ih => simp [ih]
  | swap x y l =>
      simp only [combine_cons]
      rw [← oadd_assoc, ← oadd_assoc, oadd_comm y x]
  | trans _ _ ih₁ ih₂ => exact ih₁.trans ih₂

theorem combine_append (l₁ l₂ : List (Option Int)) :
    combine (l₁ ++ l₂) = oadd (combine l₁) (combine l₂) := by
  induction l₁ with
  | nil => simp
  | cons x xs ih => simp [ih, oadd_assoc]

theorem combine_reverse (l : List (Option Int)) :
    combine l.reverse = combine l :=
  combine_perm (List.reverse_perm l)

/-- Pointwise `oadd` under `combine`: combining per-source `oadd`s equals
`oadd` of the two combined contributions. -/
theorem combine_map_oadd {α : Type} (f g : α → Option Int) (l : List α) :
    combine (l.map (fun x => oadd (f x) (g x)))
      = oadd (combine (l.map f)) (combine (l.map g)) := by
  induction l with
  | nil => rfl
  | cons x xs ih =>
      simp only [List.map_cons, combine_cons, ih]
      rw [oadd_assoc, oadd_assoc]
      congr 1
      rw [← oadd_assoc, ← oadd_assoc, oadd_comm (g x)]

/-!
## Primitive response-set lemmas
-/

@[simp] theorem keys_nil : keys [] = [] := rfl

@[simp] theorem keys_cons (x : String × String × Int) (m : ResponseSet) :
    keys (x :: m) = x.1 :: keys m := rfl

theorem keys_append (m m' : ResponseSet) : keys (m ++ m') = keys m ++ keys m' := by
  simp [keys]

theorem hasEmail_iff (m : ResponseSet) (e : String) :
    hasEmail m e = true ↔ e ∈ keys m := by
  simp [hasEmail, keys, List.any_eq_true, List.mem_map]

@[simp] theorem entryFor_nil (e : String) : entryFor [] e = none := rfl

theorem entryFor_cons (x : String × String × Int) (m : ResponseSet) (e : String) :
    entryFor (x :: m) e = if x.1 = e then some x else entryFor m e := by
  by_cases h : x.1 = e <;> simp [entryFor, List.find?_cons, h]

theorem entryFor_append (m m' : ResponseSet) (e : String) :
    entryFor (m ++ m') e
      = match entryFor m e with
        | some y => some y
        | none => entryFor m' e := by
  induction m with
  | nil => simp
  | cons x rest ih =>
      by_cases h : x.1 = e <;> simp [entryFor_cons, h, ih]

theorem entryFor_isSome_iff (m : ResponseSet) (e : String) :
    (entryFor m e).isSome ↔ e ∈ keys m := by
  induction m with
  | nil => simp
  | cons x rest ih =>
      by_cases h : x.1 = e
      · simp [entryFor_cons, h]
      · simp [entryFor_cons, h, ih, Ne.symm h]

theorem entryFor_key (m : ResponseSet) (e : String) (y : String × String × Int)
    (h : entryFor m e = some y) : y.1 = e := by
  induction m with
  | nil => simp at h
  | cons x rest ih =>
      rw [entryFor_cons] at h
      by_cases hx : x.1 = e
      · rw [if_pos hx] at h; cases h; exact hx
      · rw [if_neg hx] at h; exact ih h

theorem upsertLast_of_not_mem (m : ResponseSet) (e n : String) (p : Int)
    (h : e ∉ keys m) : upsertLast m e n p = m ++ [(e, n, p)] := by
  induction m with
  | nil => rfl
  | cons x rest ih =>
      simp only [keys_cons, List.mem_cons] at h
      push_neg at h
      simp [upsertLast, Ne.symm h.1, ih h.2]

theorem keys_upsertLast_of_mem (m : ResponseSet) (e n : String) (p : Int)
    (h : e ∈ keys m) : keys (upsertLast m e n p) = keys m := by
  induction m with
  | nil => simp at h
  | cons x rest ih =>
      by_cases hx : x.1 = e
      · simp [upsertLast, hx]
      · simp only [keys_cons, List.mem_cons] at h
        rcases h with h | h
        · exact absurd h.symm hx
        · simp [upsertLast, hx, ih h]

theorem nodupKeys_upsertLast (m : ResponseSet) (e n : String) (p : Int)
    (h : (keys m).Nodup) : (keys (upsertLast m e n p)).Nodup := by
  by_cases he : e ∈ keys m
  · rw [keys_upsertLast_of_mem m e n p he]; exact h
  · rw [upsertLast_of_not_mem m e n p he, keys_append]
    simp only [keys_cons, keys_nil]
    exact List.Nodup.append h (List.nodup_singleton e)
      (by simpa [List.disjoint_singleton] using he)

theorem entryFor_upsertLast_self (m : ResponseSet) (e n : String) (p : Int) :
    entryFor (upsertLast m e n p) e = some (e, n, p) := by
  induction m with
  | nil => simp [upsertLast, entryFor_cons]
  | cons x rest ih =>
      by_cases hx : x.1 = e
      · simp [upsertLast, hx, entryFor_cons]
      · simp [upsertLast, hx, entryFor_cons, ih]

theorem entryFor_upsertLast_ne (m : ResponseSet) (e n : String) (p : Int)
    (e' : String) (h : e' ≠ e) :
    entryFor (upsertLast m e n p) e' = entryFor m e' := by
  induction m with
  | nil => simp [upsertLast, entryFor_cons, Ne.symm h]
  | cons x rest ih =>
      by_cases hx : x.1 = e
      · subst hx
        simp [upsertLast, entryFor_cons, Ne.symm h]
      · simp [upsertLast, hx, entryFor_cons, ih]

theorem mem_upsertLast (m : ResponseSet) (e n : String) (p : Int)
    (y : String × String × Int) (h : y ∈ upsertLast m e n p) :
    y ∈ m ∨ y = (e, n, p) := by
  induction m with
  | nil => simp [upsertLast] at h; simp [h]
  | cons x rest ih =>
      by_cases hx : x.1 = e
      · simp only [upsertLast, if_pos hx, List.mem_cons] at h
        rcases h with h | h
        · right; exact h
        · left; exact List.mem_cons_of_mem x h
      · simp only [upsertLast, if_neg hx, List.mem_cons] at h
        rcases h with h | h
        · left; simp [h]
        · rcases ih h with h' | h'
          · left; exact List.mem_cons_of_mem x h'
          · right; exact h'

@[simp] theorem pointsSum_nil : pointsSum [] = 0 := rfl

@[simp] theorem pointsSum_cons (x : String × String × Int) (m : ResponseSet) :
    pointsSum (x :: m) = x.2.2 + pointsSum m := by
  simp [pointsSum]

theorem pointsSum_append (m m' : ResponseSet) :
    pointsSum (m ++ m') = pointsSum m + pointsSum m' := by
  simp [pointsSum]

@[simp] theorem keys_addPoints (m : ResponseSet) (e : String) (p : Int) :
    keys (addPoints m e p) = keys m := by
  induction m with
  | nil => rfl
  | cons x rest ih =>
      by_cases h : x.1 = e <;> simp [addPoints, h, ih]

theorem entryFor_addPoints_self (m : ResponseSet) (e : String) (p : Int) :
    entryFor (addPoints m e p) e
      = (entryFor m e).map (fun y => (y.1, y.2.1, y.2.2 + p)) := by
  induction m with
  | nil => rfl
  | cons x rest ih =>
      by_cases h : x.1 = e
      · simp [addPoints, h, entryFor_cons]
      · simp [addPoints, h, entryFor_cons, ih]

theorem entryFor_addPoints_ne (m : ResponseSet) (e : String) (p : Int)
    (e' : String) (h : e' ≠ e) :
    entryFor (addPoints m e p) e' = entryFor m e' := by
  induction m with
  | nil => rfl
  | cons x rest ih =>
      by_cases hx : x.1 = e
      · subst hx
        simp [addPoints, entryFor_cons, Ne.symm h]
      · by_cases hx' : x.1 = e'
        · subst hx'
          simp [addPoints, hx, entryFor_cons]
        · simp [addPoints, hx, hx', entryFor_cons, ih]

theorem mem_addPoints_shape (m : ResponseSet) (e : String) (p : Int)
    (y : String × String × Int) (h : y ∈ addPoints m e p) :
    ∃ z ∈ m, y.1 = z.1 ∧ y.2.1 = z.2.1 := by
  induction m with
  | nil => simp [addPoints] at h
  | cons x rest ih =>
      by_cases hx : x.1 = e
      · simp only [addPoints, if_pos hx, List.mem_cons] at h
        rcases h with h | h
        · exact ⟨x, List.mem_cons_self x rest, by simp [h]⟩
        · exact ⟨y, List.mem_cons_of_mem x h, rfl, rfl⟩
      · simp only [addPoints, if_neg hx, List.mem_cons] at h
        rcases h with h | h
        · exact ⟨x, List.mem_cons_self x rest, by simp [h]⟩
        · rcases ih h with ⟨z, hz, hk, hn⟩
          exact ⟨z, List.mem_cons_of_mem x hz, hk, hn⟩

theorem pointsSum_addPoints (m : ResponseSet) (e : String) (p : Int)
    (h : e ∈ keys m) : pointsSum (addPoints m e p) = pointsSum m + p := by
  induction m with
  | nil => simp at h
  | cons x rest ih =>
      by_cases hx : x.1 = e
      · simp only [addPoints, if_pos hx, pointsSum_cons]
        ring
      · simp only [keys_cons, List.mem_cons] at h
        rcases h with h | h
        · exact absurd h.symm hx
        · simp only [addPoints, if_neg hx, pointsSum_cons, ih h]
          ring

theorem pointsFor_mergeEntry (acc : ResponseSet) (x : String × String × Int)
    (e : String) :
    pointsFor (mergeEntry acc x) e
      = if e = x.1 then oadd (pointsFor acc e) (some x.2.2) else pointsFor acc e := by
  unfold mergeEntry
  by_cases hmem : hasEmail acc x.1
  · rw [if_pos hmem]
    by_cases he : e = x.1
    · obtain ⟨y, hy⟩ := Option.isSome_iff_exists.1
        ((entryFor_isSome_iff acc x.1).2 ((hasEmail_iff acc x.1).1 hmem))
      simp [pointsFor, he, entryFor_addPoints_self, hy, oadd]
    · simp [pointsFor, he, entryFor_addPoints_ne acc x.1 x.2.2 e he]
  · rw [if_neg hmem]
    have hnot : x.1 ∉ keys acc := fun hc => hmem ((hasEmail_iff acc x.1).2 hc)
    by_cases he : e = x.1
    · have hnone : entryFor acc x.1 = none := by
        cases hval : entryFor acc x.1 with
        | none => rfl
        | some y =>
            exact absurd ((entryFor_isSome_iff acc x.1).1 (by simp [hval])) hnot
      simp [pointsFor, he, entryFor_append, hnone, entryFor_cons, oadd]
    · simp only [pointsFor, entryFor_append, if_neg he]
      cases hval : entryFor acc e with
      | some y => simp [hval]
      | none => simp [hval, entryFor_cons, Ne.symm he]

theorem nameFor_mergeEntry_of_mem (acc : ResponseSet) (x : String × String × Int)
    (e : String) (h : e ∈ keys acc) :
    nameFor (mergeEntry acc x) e = nameFor acc e := by
  unfold mergeEntry
  by_cases hmem : hasEmail acc x.1
  · rw [if_pos hmem]
    by_cases he : e = x.1
    · cases hval : entryFor acc x.1 <;>
        simp [nameFor, he, entryFor_addPoints_self, hval]
    · simp [nameFor, entryFor_addPoints_ne acc x.1 x.2.2 e he]
  · rw [if_neg hmem]
    have hsome : (entryFor acc e).isSome := (entryFor_isSome_iff acc e).2 h
    rcases Option.isSome_iff_exists.1 hsome with ⟨y, hy⟩
    simp [nameFor, entryFor_append, hy]

theorem keys_mergeEntry (acc : ResponseSet) (x : String × String × Int) :
    keys (mergeEntry acc x)
      = if hasEmail acc x.1 then keys acc else keys acc ++ [x.1] := by
  unfold mergeEntry
  by_cases hmem : hasEmail acc x.1 <;> simp [hmem, keys_append]

theorem nodupKeys_mergeEntry (acc : ResponseSet) (x : String × String × Int)
    (h : (keys acc).Nodup) : (keys (mergeEntry acc x)).Nodup := by
  rw [keys_mergeEntry]
  by_cases hmem : hasEmail acc x.1
  · simpa [hmem] using h
  · have hnot : x.1 ∉ keys acc := fun hc => hmem ((hasEmail_iff acc x.1).2 hc)
    simp only [hmem, if_false, Bool.false_eq_true]
    exact List.Nodup.append h (List.nodup_singleton x.1)
      (by simpa [List.disjoint_singleton] using hnot)

theorem mem_keys_mergeEntry (acc : ResponseSet) (x : String × String × Int)
    (e : String) (h : e ∈ keys acc) : e ∈ keys (mergeEntry acc x) := by
  rw [keys_mergeEntry]
  by_cases hmem : hasEmail acc x.1 <;> simp [hmem, h]

theorem pointsSum_mergeEntry (acc : ResponseSet) (x : String × String × Int) :
    pointsSum (mergeEntry acc x) = pointsSum acc + x.2.2 := by
  unfold mergeEntry
  by_cases hmem : hasEmail acc x.1
  · rw [if_pos hmem]
    exact pointsSum_addPoints acc x.1 x.2.2 ((hasEmail_iff acc x.1).1 hmem)
  · rw [if_neg hmem, pointsSum_append]
    simp

theorem mem_mergeEntry_shape (acc : ResponseSet) (x y : String × String × Int)
    (h : y ∈ mergeEntry acc x) :
    (∃ z ∈ acc, y.1 = z.1 ∧ y.2.1 = z.2.1) ∨ y = x := by
  unfold mergeEntry at h
  by_cases hmem : hasEmail acc x.1
  · rw [if_pos hmem] at h
    exact Or.inl (mem_addPoints_shape acc x.1 x.2.2 y h)
  · rw [if_neg hmem] at h
    rcases List.mem_append.1 h with h | h
    · exact Or.inl ⟨y, h, rfl, rfl⟩
    · simp only [List.mem_singleton] at h
      exact Or.inr h

theorem entryFor_eq_none (m : ResponseSet) (e : String) (h : e ∉ keys m) :
    entryFor m e = none := by
  cases hval : entryFor m e with
  | none => rfl
  | some y => exact absurd ((entryFor_isSome_iff m e).1 (by simp [hval])) h

/-!
## Merging whole response sets
-/

theorem pointsFor_foldl_mergeEntry (info acc : ResponseSet) (e : String)
    (h : (keys info).Nodup) :
    pointsFor (info.foldl mergeEntry acc) e
      = oadd (pointsFor acc e) (pointsFor info e) := by
  induction info generalizing acc with
  | nil => simp [pointsFor]
  | cons x rest ih =>
      rw [keys_cons, List.nodup_cons] at h
      simp only [List.foldl_cons]
      rw [ih (mergeEntry acc x) h.2]
      by_cases he : e = x.1
      · have hnone : pointsFor rest e = none := by
          simp [pointsFor, entryFor_eq_none rest e (he ▸ h.1)]
        rw [pointsFor_mergeEntry, if_pos he, hnone, oadd_none_right]
        simp [pointsFor, entryFor_cons, he.symm]
      · rw [pointsFor_mergeEntry, if_neg he]
        have hxne : ¬ x.1 = e := fun hc => he hc.symm
        have hstep : pointsFor (x :: rest) e = pointsFor rest e := by
          simp [pointsFor, entryFor_cons, hxne]
        rw [hstep]

theorem nameFor_foldl_mergeEntry (info acc : ResponseSet) (e : String)
    (h : e ∈ keys acc) :
    nameFor (info.foldl mergeEntry acc) e = nameFor acc e := by
  induction info generalizing acc with
  | nil => rfl
  | cons x rest ih =>
      simp only [List.foldl_cons]
      rw [ih (mergeEntry acc x) (mem_keys_mergeEntry acc x e h)]
      exact nameFor_mergeEntry_of_mem acc x e h

theorem mem_keys_foldl_mergeEntry (info acc : ResponseSet) (e : String)
    (h : e ∈ keys acc) : e ∈ keys (info.foldl mergeEntry acc) := by
  induction info generalizing acc with
  | nil => exact h
  | cons x rest ih =>
      exact ih (mergeEntry acc x) (mem_keys_mergeEntry acc x e h)

theorem nodupKeys_foldl_mergeEntry (info acc : ResponseSet)
    (h : (keys acc).Nodup) : (keys (info.foldl mergeEntry acc)).Nodup := by
  induction info generalizing acc with
  | nil => exact h
  | cons x rest ih => exact ih (mergeEntry acc x) (nodupKeys_mergeEntry acc x h)

theorem pointsSum_foldl_mergeEntry (info acc : ResponseSet) :
    pointsSum (info.foldl mergeEntry acc) = pointsSum acc + pointsSum info := by
  induction info generalizing acc with
  | nil => simp
  | cons x rest ih =>
      simp only [List.foldl_cons, ih (mergeEntry acc x), pointsSum_mergeEntry,
        pointsSum_cons]
      ring

theorem mem_foldl_mergeEntry_shape (info acc : ResponseSet)
    (y : String × String × Int) (h : y ∈ info.foldl mergeEntry acc) :
    (∃ z ∈ acc, y.1 = z.1 ∧ y.2.1 = z.2.1)
      ∨ ∃ z ∈ info, y.1 = z.1 ∧ y.2.1 = z.2.1 := by
  induction info generalizing acc with
  | nil => exact Or.inl ⟨y, h, rfl, rfl⟩
  | cons x rest ih =>
      rcases ih (mergeEntry acc x) h with h' | h'
      · rcases h' with ⟨z, hz, hk, hn⟩
        rcases mem_mergeEntry_shape acc x z hz with ⟨w, hw, hk', hn'⟩ | hzx
        · exact Or.inl ⟨w, hw, hk.trans hk', hn.trans hn'⟩
        · exact Or.inr ⟨x, List.mem_cons_self x rest, hzx ▸ hk, hzx ▸ hn⟩
      · rcases h' with ⟨z, hz, hk, hn⟩
        exact Or.inr ⟨z, List.mem_cons_of_mem x hz, hk, hn⟩

theorem mergeAll_some (acc : ResponseSet) (infos : List ResponseSet) :
    mergeAll (some acc) infos = infos.foldl mergeInfo acc := by
  induction infos generalizing acc with
  | nil => rfl
  | cons i rest ih => simp [mergeAll, ih]

theorem pointsFor_foldl_mergeInfo (infos : List ResponseSet) (acc : ResponseSet)
    (e : String) (h : ∀ i ∈ infos, (keys i).Nodup) :
    pointsFor (infos.foldl mergeInfo acc) e
      = oadd (pointsFor acc e) (combine (infos.map (fun i => pointsFor i e))) := by
  induction infos generalizing acc with
  | nil => simp
  | cons i rest ih =>
      simp only [List.foldl_cons, List.map_cons, combine_cons]
      rw [ih (mergeInfo acc i) (fun j hj => h j (List.mem_cons_of_mem i hj))]
      rw [mergeInfo, pointsFor_foldl_mergeEntry i acc e (h i (List.mem_cons_self i rest))]
      rw [oadd_assoc]

/-- Per-email characterisation of the whole `updateMemberPoints` merge: the
points stored for an email are the `oadd`-combination of its per-sheet
contributions, in processing order. -/
theorem pointsFor_mergeAll (infos : List ResponseSet) (e : String)
    (h : ∀ i ∈ infos, (keys i).Nodup) :
    pointsFor (mergeAll none infos) e
      = combine (infos.map (fun i => pointsFor i e)) := by
  cases infos with
  | nil => simp [mergeAll, pointsFor]
  | cons i rest =>
      have h1 : mergeAll none (i :: rest) = rest.foldl mergeInfo i := by
        rw [show mergeAll none (i :: rest) = mergeAll (some i) rest from rfl,
          mergeAll_some]
      rw [h1, pointsFor_foldl_mergeInfo rest i e
        (fun j hj => h j (List.mem_cons_of_mem i hj))]
      simp

theorem nodupKeys_mergeAll (infos : List ResponseSet)
    (h : ∀ i ∈ infos, (keys i).Nodup) :
    (keys (mergeAll none infos)).Nodup := by
  cases infos with
  | nil => simp [mergeAll]
  | cons i rest =>
      rw [show mergeAll none (i :: rest) = mergeAll (some i) rest from rfl,
        mergeAll_some]
      have : ∀ (rest' : List ResponseSet) (acc : ResponseSet), (keys acc).Nodup →
          (keys (rest'.foldl mergeInfo acc)).Nodup := by
        intro rest' acc hacc
        induction rest' generalizing acc with
        | nil => exact hacc
        | cons j rs ih => exact ih (mergeInfo acc j) (nodupKeys_foldl_mergeEntry j acc hacc)
      exact this rest i (h i (List.mem_cons_self i rest))

theorem pointsSum_mergeAll (infos : List ResponseSet) :
    pointsSum (mergeAll none infos) = (infos.map pointsSum).sum := by
  cases infos with
  | nil => simp [mergeAll]
  | cons i rest =>
      rw [show mergeAll none (i :: rest) = mergeAll (some i) rest from rfl,
        mergeAll_some]
      have : ∀ (rest' : List ResponseSet) (acc : ResponseSet),
          pointsSum (rest'.foldl mergeInfo acc)
            = pointsSum acc + (rest'.map pointsSum).sum := by
        intro rest' acc
        induction rest' generalizing acc with
        | nil => simp
        | cons j rs ih =>
            rw [List.foldl_cons, ih (mergeInfo acc j)]
            simp only [mergeInfo, pointsSum_foldl_mergeEntry, List.map_cons,
              List.sum_cons]
            ring
      rw [this rest i]
      simp

theorem mem_mergeAll_shape (infos : List ResponseSet)
    (y : String × String × Int) (h : y ∈ mergeAll none infos) :
    ∃ i ∈ infos, ∃ z ∈ i, y.1 = z.1 ∧ y.2.1 = z.2.1 := by
  cases infos with
  | nil => simp [mergeAll] at h
  | cons i rest =>
      rw [show mergeAll none (i :: rest) = mergeAll (some i) rest from rfl,
        mergeAll_some] at h
      have main : ∀ (rest' : List ResponseSet) (acc : ResponseSet),
          y ∈ rest'.foldl mergeInfo acc →
          (∃ z ∈ acc, y.1 = z.1 ∧ y.2.1 = z.2.1)
            ∨ ∃ i' ∈ rest', ∃ z ∈ i', y.1 = z.1 ∧ y.2.1 = z.2.1 := by
        intro rest' acc hmem
        induction rest' generalizing acc with
        | nil => exact Or.inl ⟨y, hmem, rfl, rfl⟩
        | cons j rs ih =>
            rcases ih (mergeInfo acc j) hmem with h' | h'
            · rcases h' with ⟨z, hz, hk, hn⟩
              rcases mem_foldl_mergeEntry_shape j acc z hz with h'' | h''
              · rcases h'' with ⟨w, hw, hk', hn'⟩
                exact Or.inl ⟨w, hw, hk.trans hk', hn.trans hn'⟩
              · rcases h'' with ⟨w, hw, hk', hn'⟩
                exact Or.inr ⟨j, List.mem_cons_self j rs, w, hw,
                  hk.trans hk', hn.trans hn'⟩
            · rcases h' with ⟨i', hi', z, hz, hk, hn⟩
              exact Or.inr ⟨i', List.mem_cons_of_mem j hi', z, hz, hk, hn⟩
      rcases main rest i h with h' | h'
      · rcases h' with ⟨z, hz, hk, hn⟩
        exact ⟨i, List.mem_cons_self i rest, z, hz, hk, hn⟩
      · rcases h' with ⟨i', hi', z, hz, hk, hn⟩
        exact ⟨i', List.mem_cons_of_mem i hi', z, hz, hk, hn⟩

/-!
## Per-sheet characterisation of `getResponsesFromEvent`

The entry stored for an email is determined by the *last* row of the read
prefix carrying that email (a JS object write overwrites): `lastFor` picks
that row, and the whole response set of a sheet with no repeated email is
just the row list mapped entrywise.
-/

@[simp] theorem readRows_nil : readRows [] = [] := rfl

theorem readRows_cons (r : AttendanceRecord) (rows : List AttendanceRecord) :
    readRows (r :: rows)
      = if lowerCase r.email = "" then [] else r :: readRows rows := by
  by_cases h : lowerCase r.email = "" <;> simp [readRows, List.takeWhile_cons, h]

@[simp] theorem lastFor_nil (e : String) : lastFor e [] = none := rfl

theorem lastFor_cons (e : String) (r : AttendanceRecord)
    (rows : List AttendanceRecord) :
    lastFor e (r :: rows)
      = match lastFor e rows with
        | some r' => some r'
        | none => if lowerCase r.email = e then some r else none := rfl

theorem entryFor_go (s : EventSource) (rs : List AttendanceRecord)
    (acc : ResponseSet) (e : String) :
    entryFor (getResponsesFromEvent.go s rs acc) e
      = match lastFor e (readRows rs) with
        | some r => some (e, r.name, recordPoints s.defaultPoints r)
        | none => entryFor acc e := by
  induction rs generalizing acc with
  | nil => simp [getResponsesFromEvent.go]
  | cons r rest ih =>
      by_cases hr : lowerCase r.email = ""
      · simp [getResponsesFromEvent.go, hr, readRows_cons]
      · have hstep : getResponsesFromEvent.go s (r :: rest) acc
            = getResponsesFromEvent.go s rest
                (upsertLast acc (lowerCase r.email) r.name
                  (recordPoints s.defaultPoints r)) := by
          simp [getResponsesFromEvent.go, hr]
        rw [hstep, ih, readRows_cons, if_neg hr, lastFor_cons]
        by_cases he : lowerCase r.email = e
        · cases hlast : lastFor e (readRows rest) with
          | some r' => rfl
          | none => simp [he ▸ entryFor_upsertLast_self acc (lowerCase r.email)
              r.name (recordPoints s.defaultPoints r), he]
        · cases hlast : lastFor e (readRows rest) with
          | some r' => rfl
          | none =>
              simp only [he, if_false]
              exact entryFor_upsertLast_ne acc (lowerCase r.email) r.name
                (recordPoints s.defaultPoints r) e (fun hc => he hc.symm)

/-- The ledger entry a sheet contributes for an email comes from the last
read row carrying that email. -/
theorem entryFor_getResponses (s : EventSource) (e : String) :
    entryFor (getResponsesFromEvent s) e
      = (lastFor e (readRecords s)).map
          (fun r => (e, r.name, recordPoints s.defaultPoints r)) := by
  rw [getResponsesFromEvent, readRecords, entryFor_go]
  cases lastFor e (readRows s.records) <;> rfl

theorem nodupKeys_go (s : EventSource) (rs : List AttendanceRecord)
    (acc : ResponseSet) (h : (keys acc).Nodup) :
    (keys (getResponsesFromEvent.go s rs acc)).Nodup := by
  induction rs generalizing acc with
  | nil => simpa [getResponsesFromEvent.go] using h
  | cons r rest ih =>
      by_cases hr : lowerCase r.email = ""
      · simpa [getResponsesFromEvent.go, hr] using h
      · have hstep : getResponsesFromEvent.go s (r :: rest) acc
            = getResponsesFromEvent.go s rest
                (upsertLast acc (lowerCase r.email) r.name
                  (recordPoints s.defaultPoints r)) := by
          simp [getResponsesFromEvent.go, hr]
        rw [hstep]
        exact ih _ (nodupKeys_upsertLast acc _ _ _ h)

theorem nodupKeys_getResponses (s : EventSource) :
    (keys (getResponsesFromEvent s)).Nodup :=
  nodupKeys_go s s.records [] List.nodup_nil

theorem mem_go_shape (s : EventSource) (rs : List AttendanceRecord)
    (acc : ResponseSet) (y : String × String × Int)
    (h : y ∈ getResponsesFromEvent.go s rs acc) :
    (∃ r ∈ readRows rs, y.1 = lowerCase r.email ∧ y.2.1 = r.name) ∨ y ∈ acc := by
  induction rs generalizing acc with
  | nil =>
      right
      simpa [getResponsesFromEvent.go] using h
  | cons r rest ih =>
      by_cases hr : lowerCase r.email = ""
      · right
        simpa [getResponsesFromEvent.go, hr] using h
      · have hstep : getResponsesFromEvent.go s (r :: rest) acc
            = getResponsesFromEvent.go s rest
                (upsertLast acc (lowerCase r.email) r.name
                  (recordPoints s.defaultPoints r)) := by
          simp [getResponsesFromEvent.go, hr]
        rw [hstep] at h
        rcases ih _ h with h' | h'
        · rcases h' with ⟨r', hr', hk, hn⟩
          refine Or.inl ⟨r', ?_, hk, hn⟩
          rw [readRows_cons, if_neg hr]
          exact List.mem_cons_of_mem r hr'
        · rcases mem_upsertLast acc _ _ _ y h' with h'' | h''
          · exact Or.inr h''
          · refine Or.inl ⟨r, ?_, by rw [h''], by rw [h'']⟩
            rw [readRows_cons, if_neg hr]
            exact List.mem_cons_self r (readRows rest)

/-- Every entry of a sheet's response set comes from a read row: the key is
that row's lowercased email and the stored name is the row's name verbatim. -/
theorem mem_getResponses_shape (s : EventSource) (y : String × String × Int)
    (h : y ∈ getResponsesFromEvent s) :
    ∃ r ∈ readRecords s, y.1 = lowerCase r.email ∧ y.2.1 = r.name := by
  rcases mem_go_shape s s.records [] y h with h' | h'
  · exact h'
  · simp at h'

theorem go_eq_append_map (s : EventSource) (rs : List AttendanceRecord)
    (acc : ResponseSet)
    (hnd : ((readRows rs).map (fun r => lowerCase r.email)).Nodup)
    (hdisj : ∀ r ∈ readRows rs, lowerCase r.email ∉ keys acc) :
    getResponsesFromEvent.go s rs acc
      = acc ++ (readRows rs).map
          (fun r => (lowerCase r.email, r.name, recordPoints s.defaultPoints r)) := by
  induction rs generalizing acc with
  | nil => simp [getResponsesFromEvent.go]
  | cons r rest ih =>
      by_cases hr : lowerCase r.email = ""
      · simp [getResponsesFromEvent.go, hr, readRows_cons]
      · have hstep : getResponsesFromEvent.go s (r :: rest) acc
            = getResponsesFromEvent.go s rest
                (upsertLast acc (lowerCase r.email) r.name
                  (recordPoints s.defaultPoints r)) := by
          simp [getResponsesFromEvent.go, hr]
        rw [readRows_cons, if_neg hr] at hnd hdisj ⊢
        rw [List.map_cons, List.nodup_cons] at hnd
        have hk : lowerCase r.email ∉ keys acc :=
          hdisj r (List.mem_cons_self r (readRows rest))
        rw [hstep, upsertLast_of_not_mem acc _ _ _ hk]
        rw [ih (acc ++ [(lowerCase r.email, r.name, recordPoints s.defaultPoints r)])
          hnd.2 ?_]
        · simp
        · intro r' hr'
          rw [keys_append]
          simp only [keys_cons, keys_nil, List.mem_append, List.mem_singleton]
          rintro (hc | hc)
          · exact hdisj r' (List.mem_cons_of_mem r hr') hc
          · exact hnd.1 (hc ▸ List.mem_map_of_mem (fun r => lowerCase r.email) hr')

/-- A sheet in which no two read rows share a lowercased email contributes
exactly one entry per read row, in order. -/
theorem getResponses_eq_map (s : EventSource)
    (hnd : ((readRecords s).map (fun r => lowerCase r.email)).Nodup) :
    getResponsesFromEvent s
      = (readRecords s).map
          (fun r => (lowerCase r.email, r.name, recordPoints s.defaultPoints r)) := by
  rw [getResponsesFromEvent, go_eq_append_map s s.records [] hnd (by simp)]
  simp [readRecords]

/-- Points contributed by a duplicate-free sheet sum to the per-row sum. -/
theorem pointsSum_getResponses (s : EventSource)
    (hnd : ((readRecords s).map (fun r => lowerCase r.email)).Nodup) :
    pointsSum (getResponsesFromEvent s)
      = ((readRecords s).map (recordPoints s.defaultPoints)).sum := by
  rw [getResponses_eq_map s hnd]
  simp only [pointsSum, List.map_map]
  rfl

/-!
## Whole-catalog characterisation of the aggregate
-/

theorem aggregate_infos_nodup (sources : List EventSource) :
    ∀ i ∈ (sources.map getResponsesFromEvent).reverse, (keys i).Nodup := by
  intro i hi
  rw [List.mem_reverse] at hi
  rcases List.mem_map.1 hi with ⟨s, _, rfl⟩
  exact nodupKeys_getResponses s

/-- The points the aggregate stores for an email are the combined
per-sheet contributions of that email, independent of processing order. -/
theorem pointsFor_aggregate (sources : List EventSource) (e : String) :
    pointsFor (aggregate sources) e
      = combine (sources.map (fun s => pointsFor (getResponsesFromEvent s) e)) := by
  rw [aggregate, pointsFor_mergeAll _ e (aggregate_infos_nodup sources),
    List.map_reverse, combine_reverse, List.map_map]
  rfl

theorem nodupKeys_aggregate (sources : List EventSource) :
    (keys (aggregate sources)).Nodup := by
  rw [aggregate]
  exact nodupKeys_mergeAll _ (aggregate_infos_nodup sources)

theorem pointsSum_aggregate (sources : List EventSource) :
    pointsSum (aggregate sources)
      = (sources.map (fun s => pointsSum (getResponsesFromEvent s))).sum := by
  rw [aggregate, pointsSum_mergeAll, List.map_reverse, List.sum_reverse,
    List.map_map]
  rfl

theorem mem_aggregate_shape (sources : List EventSource)
    (y : String × String × Int) (h : y ∈ aggregate sources) :
    ∃ s ∈ sources, ∃ r ∈ readRecords s, y.1 = lowerCase r.email ∧ y.2.1 = r.name := by
  rw [aggregate] at h
  rcases mem_mergeAll_shape _ y h with ⟨i, hi, z, hz, hk, hn⟩
  rw [List.mem_reverse] at hi
  rcases List.mem_map.1 hi with ⟨s, hs, rfl⟩
  rcases mem_getResponses_shape s z hz with ⟨r, hr, hk', hn'⟩
  exact ⟨s, hs, r, hr, hk.trans hk', hn.trans hn'⟩

theorem pointsFor_aggregate_perm {s₁ s₂ : List EventSource} (h : s₁.Perm s₂)
    (e : String) : pointsFor (aggregate s₁) e = pointsFor (aggregate s₂) e := by
  rw [pointsFor_aggregate, pointsFor_aggregate]
  exact combine_perm (h.map _)

/-!
## The totals a response set carries, and the running maximum
-/

theorem entryFor_of_mem_nodup (m : ResponseSet) (x : String × String × Int)
    (hnd : (keys m).Nodup) (hx : x ∈ m) : entryFor m x.1 = some x := by
  induction m with
  | nil => simp at hx
  | cons z rest ih =>
      rw [keys_cons, List.nodup_cons] at hnd
      rcases List.mem_cons.1 hx with rfl | hx'
      · simp [entryFor_cons]
      · have hzx : ¬ z.1 = x.1 := by
          intro hc
          exact hnd.1 (hc ▸ List.mem_map_of_mem (fun y => y.1) hx')
        rw [entryFor_cons, if_neg hzx]
        exact ih hnd.2 hx'

theorem mem_totals_iff (m : ResponseSet) (hnd : (keys m).Nodup) (v : Int) :
    v ∈ m.map (fun x => x.2.2) ↔ ∃ e, pointsFor m e = some v := by
  constructor
  · intro hv
    rcases List.mem_map.1 hv with ⟨x, hx, rfl⟩
    exact ⟨x.1, by rw [pointsFor, entryFor_of_mem_nodup m x hnd hx]; rfl⟩
  · rintro ⟨e, he⟩
    rw [pointsFor] at he
    cases hval : entryFor m e with
    | none => rw [hval] at he; simp at he
    | some y =>
        rw [hval] at he
        simp at he
        have hy : y ∈ m := List.mem_of_find?_eq_some hval
        exact he ▸ List.mem_map_of_mem (fun x => x.2.2) hy

theorem le_foldl_max (l : List Int) (a : Int) : a ≤ l.foldl max a := by
  induction l generalizing a with
  | nil => exact le_refl a
  | cons t ts ih => exact le_trans (le_max_left a t) (ih (max a t))

theorem mem_le_foldl_max (l : List Int) (a x : Int) : x ∈ l → x ≤ l.foldl max a := by
  induction l generalizing a with
  | nil => intro hx; simp at hx
  | cons t ts ih =>
      intro hx
      rw [List.foldl_cons]
      rcases List.mem_cons.1 hx with rfl | hx'
      · exact le_trans (le_max_right a x) (le_foldl_max ts (max a x))
      · exact ih (max a t) hx'

theorem foldl_max_eq_or_mem (l : List Int) (a : Int) :
    l.foldl max a = a ∨ l.foldl max a ∈ l := by
  induction l generalizing a with
  | nil => exact Or.inl rfl
  | cons t ts ih =>
      rcases ih (max a t) with h | h
      · rcases max_choice a t with hc | hc
        · exact Or.inl (by rw [List.foldl_cons, h, hc])
        · exact Or.inr (by rw [List.foldl_cons, h, hc]; exact List.mem_cons_self t ts)
      · exact Or.inr (List.mem_cons_of_mem t h)

/-- Two total lists with the same elements have the same running maximum
(the `max` starts at 0 as in the code). -/
theorem foldl_max_congr (l₁ l₂ : List Int) (h : ∀ v, v ∈ l₁ ↔ v ∈ l₂) :
    l₁.foldl max 0 = l₂.foldl max 0 := by
  apply le_antisymm
  · rcases foldl_max_eq_or_mem l₁ 0 with h1 | h1
    · rw [h1]; exact le_foldl_max l₂ 0
    · exact mem_le_foldl_max l₂ 0 _ ((h _).1 h1)
  · rcases foldl_max_eq_or_mem l₂ 0 with h1 | h1
    · rw [h1]; exact le_foldl_max l₁ 0
    · exact mem_le_foldl_max l₁ 0 _ ((h _).2 h1)

/-!
## The Most-Involved pass: `maxLoop` and `tagTiers`
-/

theorem maxLoop_fst (ts : List Int) (mx : Int) (idxs : List Nat) (i : Nat) :
    (maxLoop ts mx idxs i).1 = ts.foldl max mx := by
  induction ts generalizing mx idxs i with
  | nil => rfl
  | cons t ts ih =>
      rw [List.foldl_cons]
      by_cases h1 : mx < t
      · rw [show maxLoop (t :: ts) mx idxs i = maxLoop ts t [i] (i + 1) from by
          simp [maxLoop, h1]]
        rw [ih, max_eq_right h1.le]
      · have hmax : max mx t = mx := max_eq_left (le_of_not_lt h1)
        by_cases h2 : t = mx
        · rw [show maxLoop (t :: ts) mx idxs i = maxLoop ts mx (idxs ++ [i]) (i + 1)
            from by simp [maxLoop, h1, h2]]
          rw [ih, hmax]
        · rw [show maxLoop (t :: ts) mx idxs i = maxLoop ts mx idxs (i + 1) from by
            simp [maxLoop, h1, h2]]
          rw [ih, hmax]

theorem maxLoop_snd (ts : List Int) (mx : Int) (idxs : List Nat) (i : Nat) :
    (maxLoop ts mx idxs i).2
      = (if ts.foldl max mx = mx then idxs else [])
          ++ tiesFrom ts (ts.foldl max mx) i := by
  induction ts generalizing mx idxs i with
  | nil => simp [maxLoop, tiesFrom]
  | cons t ts ih =>
      rw [List.foldl_cons]
      by_cases h1 : mx < t
      · rw [show maxLoop (t :: ts) mx idxs i = maxLoop ts t [i] (i + 1) from by
          simp [maxLoop, h1]]
        rw [ih, max_eq_right h1.le]
        have hMt : t ≤ ts.foldl max t := le_foldl_max ts t
        have hMne : ts.foldl max t ≠ mx := fun hc =>
          absurd (hc ▸ hMt) (not_le.2 h1)
        rw [if_neg hMne]
        simp only [tiesFrom]
        by_cases h2 : ts.foldl max t = t
        · rw [if_pos h2, if_pos h2.symm]
          simp
        · rw [if_neg h2, if_neg (fun hc => h2 hc.symm)]
      · have hmax : max mx t = mx := max_eq_left (le_of_not_lt h1)
        by_cases h2 : t = mx
        · rw [show maxLoop (t :: ts) mx idxs i = maxLoop ts mx (idxs ++ [i]) (i + 1)
            from by simp [maxLoop, h1, h2]]
          rw [ih, hmax]
          simp only [tiesFrom]
          by_cases h3 : ts.foldl max mx = mx
          · rw [if_pos h3, if_pos h3, if_pos (h2.trans h3.symm)]
            simp
          · rw [if_neg h3, if_neg h3,
              if_neg (fun hc : t = ts.foldl max mx => h3 (by rw [← hc, h2]))]
        · rw [show maxLoop (t :: ts) mx idxs i = maxLoop ts mx idxs (i + 1) from by
            simp [maxLoop, h1, h2]]
          rw [ih, hmax]
          simp only [tiesFrom]
          have hlt : t < mx := lt_of_le_of_ne (le_of_not_lt h1) h2
          have hne : ¬ t = ts.foldl max mx := fun hc => by
            have hge := le_foldl_max ts mx
            rw [← hc] at hge
            exact absurd hge (not_le.2 hlt)
          rw [if_neg hne]

theorem mem_tiesFrom (ts : List Int) (M : Int) (i j : Nat) :
    j ∈ tiesFrom ts M i
      ↔ ∃ k, ∃ hk : k < ts.length, ts[k] = M ∧ j = i + k := by
  induction ts generalizing i with
  | nil => simp [tiesFrom]
  | cons t ts ih =>
      simp only [tiesFrom]
      by_cases h : t = M
      · rw [if_pos h]
        simp only [List.mem_cons, ih]
        constructor
        · rintro (rfl | ⟨k, hk, hM, rfl⟩)
          · exact ⟨0, by simp, by simpa using h, by omega⟩
          · exact ⟨k + 1, by simpa using Nat.succ_lt_succ hk, by simpa using hM,
              by omega⟩
        · rintro ⟨k, hk, hM, rfl⟩
          cases k with
          | zero => exact Or.inl (by omega)
          | succ k' =>
              right
              refine ⟨k', ?_, ?_, by omega⟩
              · simpa using Nat.lt_of_succ_lt_succ (by simpa using hk)
              · simpa using hM
      · rw [if_neg h]
        rw [ih]
        constructor
        · rintro ⟨k, hk, hM, rfl⟩
          exact ⟨k + 1, by simpa using Nat.succ_lt_succ hk, by simpa using hM,
            by omega⟩
        · rintro ⟨k, hk, hM, rfl⟩
          cases k with
          | zero => exact absurd (by simpa using hM) h
          | succ k' =>
              refine ⟨k', ?_, ?_, by omega⟩
              · simpa using Nat.lt_of_succ_lt_succ (by simpa using hk)
              · simpa using hM

theorem tagTiers_eq_map (M : Int) (idxs : List Nat) (i : Nat) (m : ResponseSet)
    (h : ∀ (k : Nat) (hk : k < m.length), ((i + k) ∈ idxs ↔ (m[k]).2.2 = M)) :
    tagTiers M idxs i m
      = m.map (fun x =>
          { name := x.2.1, email := x.1, totalPoints := x.2.2,
            tier := if 15 ≤ M ∧ x.2.2 = M then Tier.MostInvolved
                    else baseTier x.2.2 }) := by
  induction m generalizing i with
  | nil => rfl
  | cons x rest ih =>
      simp only [tagTiers, List.map_cons]
      have h0 : i ∈ idxs ↔ x.2.2 = M := by simpa using h 0 (by simp)
      congr 1
      · have hiff : (15 ≤ M ∧ i ∈ idxs) ↔ (15 ≤ M ∧ x.2.2 = M) :=
          and_congr_right (fun _ => h0)
        rw [if_congr hiff rfl rfl]
      · apply ih
        intro k hk
        have hk1 := h (k + 1) (by simpa using Nat.succ_lt_succ hk)
        have harith : i + (k + 1) = i + 1 + k := by omega
        simpa [harith] using hk1

/-- The tier pass in closed form: every row keeps its totals, and is tagged
Most-Involved exactly when the global running max (floored at 0) is at
least 15 and the row's total equals it; otherwise it keeps its threshold
tier. -/
theorem assignTiers_eq (m : ResponseSet) :
    assignTiers m
      = m.map (fun x =>
          { name := x.2.1, email := x.1, totalPoints := x.2.2,
            tier := if 15 ≤ (m.map (fun y => y.2.2)).foldl max 0
                        ∧ x.2.2 = (m.map (fun y => y.2.2)).foldl max 0
                    then Tier.MostInvolved else baseTier x.2.2 }) := by
  simp only [assignTiers]
  rw [maxLoop_fst, maxLoop_snd]
  rw [show (if (m.map (fun y => y.2.2)).foldl max 0 = 0 then ([] : List Nat) else [])
      = [] from by rw [ite_self]]
  rw [List.nil_append]
  apply tagTiers_eq_map
  intro k hk
  constructor
  · intro hmem
    rcases (mem_tiesFrom _ _ _ _).1 hmem with ⟨k', hk', hM, heq⟩
    have hkk : k = k' := by omega
    subst hkk
    simpa using hM
  · intro hval
    refine (mem_tiesFrom _ _ _ _).2 ⟨k, ?_, ?_, by omega⟩
    · simpa using hk
    · simpa using hval

/-!
## Ledger-level helpers
-/

theorem ledger_totals (sources : List EventSource) :
    (ledgerOf sources).map LedgerEntry.totalPoints
      = (aggregate sources).map (fun y => y.2.2) := by
  rw [ledgerOf, assignTiers_eq, List.map_map]
  rfl

theorem ledger_emails (sources : List EventSource) :
    (ledgerOf sources).map LedgerEntry.email = keys (aggregate sources) := by
  rw [ledgerOf, assignTiers_eq, List.map_map]
  rfl

theorem ledgerEntryFor_eq (sources : List EventSource) (e : String) :
    ledgerEntryFor (ledgerOf sources) e
      = (entryFor (aggregate sources) e).map
          (fun x =>
            { name := x.2.1, email := x.1, totalPoints := x.2.2,
              tier := if 15 ≤ ((aggregate sources).map (fun y => y.2.2)).foldl max 0
                          ∧ x.2.2 = ((aggregate sources).map (fun y => y.2.2)).foldl max 0
                      then Tier.MostInvolved else baseTier x.2.2 }) := by
  rw [ledgerOf, assignTiers_eq, ledgerEntryFor, List.find?_map]
  rfl

/-- In a ledger whose emails are pairwise distinct, filtering by an email
returns the found row, or nothing. -/
theorem ledger_filter_by_email (L : List LedgerEntry)
    (hnd : (L.map LedgerEntry.email).Nodup) (e : String) :
    L.filter (fun ent => ent.email == e)
      = match L.find? (fun ent => ent.email == e) with
        | some x => [x]
        | none => [] := by
  induction L with
  | nil => rfl
  | cons x rest ih =>
      rw [List.map_cons, List.nodup_cons] at hnd
      by_cases hx : x.email = e
      · have hrest : rest.filter (fun ent => ent.email == e) = [] := by
          apply List.filter_eq_nil_iff.2
          intro ent hent hc
          rw [beq_iff_eq] at hc
          exact hnd.1 (by rw [hx, ← hc]; exact List.mem_map_of_mem LedgerEntry.email hent)
        rw [List.filter_cons, List.find?_cons]
        simp [hx, hrest]
      · have hbeq : (x.email == e) = false := by
          rw [beq_eq_false_iff_ne]
          exact hx
        rw [List.filter_cons, List.find?_cons, hbeq]
        simp [ih hnd.2]

theorem nodup_ledger_emails (sources : List EventSource) :
    ((ledgerOf sources).map LedgerEntry.email).Nodup := by
  rw [ledger_emails]
  exact nodupKeys_aggregate sources

/-- Two catalogs whose aggregates agree on every email pointwise have the
same running maximum total. -/
theorem maxTotal_aggregate_perm {s₁ s₂ : List EventSource} (h : s₁.Perm s₂) :
    ((aggregate s₁).map (fun y => y.2.2)).foldl max 0
      = ((aggregate s₂).map (fun y => y.2.2)).foldl max 0 := by
  apply foldl_max_congr
  intro v
  rw [mem_totals_iff _ (nodupKeys_aggregate s₁), mem_totals_iff _ (nodupKeys_aggregate s₂)]
  exact exists_congr (fun e => by rw [pointsFor_aggregate_perm h e])

/-!
## Counterexamples and failing inputs on concrete catalogs
-/

/-- C1 counterexample: with two rows of one sheet sharing the normalized
email "a@x.com" (default 1 point each, no bonus), the ledger total is 1
while the per-record sum over the source is 2, so the sums differ — the
second row of the sheet overwrites the first in `getResponsesFromEvent`
rather than accumulating. -/
theorem conservation_fails_on_duplicate_email_in_one_source :
    (((ledgerOf [⟨"Dup", 1, [⟨"Alice", "a@x.com", none⟩, ⟨"Bob", "a@x.com", none⟩]⟩]).map
        LedgerEntry.totalPoints).sum : Int) = 1 ∧
    ((([⟨"Dup", 1, [⟨"Alice", "a@x.com", none⟩, ⟨"Bob", "a@x.com", none⟩]⟩] :
        List EventSource).map
        (fun s => (s.records.map (recordPoints s.defaultPoints)).sum)).sum : Int) = 2 ∧
    (1 : Int) ≠ 2 := by decide

/-- C2 failing input: two adjacent rows both matching the deleted member.
`deleteRow(index)` shifts the second matching row into the deleted slot
and `index++` then skips it, so one copy of "Bob Smith"/"bob@x.com"
survives the deletion (the claim — and the function's stated purpose —
require both to be removed). -/
theorem deleteName_skips_adjacent_duplicate :
    deleteName "Bob Smith" "bob@x.com"
        [⟨"E", 1, [⟨"Bob Smith", "bob@x.com", none⟩, ⟨"Bob Smith", "bob@x.com", none⟩,
                   ⟨"Carol", "c@x.com", none⟩]⟩]
      = ([⟨"E", 1, [⟨"Bob Smith", "bob@x.com", none⟩, ⟨"Carol", "c@x.com", none⟩]⟩], none) := by
  decide

/-- C3 counterexample: with one unreadable source and a non-empty previous
ledger, the aborted run leaves the ledger sheet empty — the contents were
cleared before the failing read — rather than leaving the previous
contents in place as the claim states. -/
theorem aborted_run_leaves_cleared_ledger :
    updateMemberPointsRun [SourceHandle.unreadable]
        [⟨"Alice", "a@x.com", 3, Tier.Active⟩]
      = ([], true) ∧
    ([] : List LedgerEntry) ≠ [⟨"Alice", "a@x.com", 3, Tier.Active⟩] := by decide

/-- C5 counterexample: swapping two single-row sheets that share the
normalized email "a@x.com" but carry different display names changes the
stored name of the resulting ledger entry (the first-processed sheet's
name wins), so the two enumeration orders do not yield the same set of
ledger entries. -/
theorem aggregation_not_order_independent :
    ([⟨"A", 2, [⟨"Alice", "a@x.com", none⟩]⟩, ⟨"B", 4, [⟨"Bob", "a@x.com", none⟩]⟩] :
        List EventSource).Perm
      [⟨"B", 4, [⟨"Bob", "a@x.com", none⟩]⟩, ⟨"A", 2, [⟨"Alice", "a@x.com", none⟩]⟩] ∧
    ∃ ent ∈ ledgerOf [⟨"A", 2, [⟨"Alice", "a@x.com", none⟩]⟩,
                      ⟨"B", 4, [⟨"Bob", "a@x.com", none⟩]⟩],
      ent ∉ ledgerOf [⟨"B", 4, [⟨"Bob", "a@x.com", none⟩]⟩,
                      ⟨"A", 2, [⟨"Alice", "a@x.com", none⟩]⟩] := by decide

/-- C7 counterexample: `fixEmail` called with the old email identical to
the (non-empty) new email reports no error and proceeds — the claimed
identical-emails validation does not exist in the code (the rewrite it
then performs is a value-level no-op). -/
theorem fixEmail_accepts_identical_emails :
    fixEmail "a@x.com" "a@x.com" [⟨"E", 1, [⟨"Alice", "a@x.com", none⟩]⟩]
      = ([⟨"E", 1, [⟨"Alice", "a@x.com", none⟩]⟩], none) ∧
    "a@x.com" ≠ "" := by decide

/-- C8 counterexample: when the repeated sighting of an email is in the
same sheet, the later row overwrites the stored name and replaces the
points instead of adding to them: the ledger shows ("Bob", 6), not the
("Alice", 7) the first-seen-wins claim would give. -/
theorem repeat_sighting_in_same_source_overwrites :
    (ledgerOf [⟨"E", 1, [⟨"Alice", "a@x.com", none⟩, ⟨"Bob", "a@x.com", some 5⟩]⟩]).map
        (fun ent => (ent.name, ent.totalPoints)) = [("Bob", 6)] ∧
    ("Bob", (6 : Int)) ≠ ("Alice", (7 : Int)) := by decide

/-- C9 counterexample: a sheet holding two rows whose normalized name both
match the query yields a single breakdown entry with the first row's
points (total 1), not one entry per matching record (which would give two
entries and total 3): `getNameFromSheet` returns at the first match. -/
theorem findUser_counts_one_match_per_sheet :
    findUser "Carol Lee"
        [⟨"Event", 1, [⟨"Carol Lee", "c1@x.com", none⟩, ⟨"Carol Lee", "c2@x.com", some 1⟩]⟩]
      = some ([("Event - 1 Member Point", 1)], 1, 1) ∧
    (([⟨"Carol Lee", "c1@x.com", none⟩, ⟨"Carol Lee", "c2@x.com", some 1⟩] :
        List AttendanceRecord).filter
        (fun r => lowerCase r.name = "carol lee")).length = 2 := by decide

/-!
## Splitting the merge across a catalog concatenation
-/

theorem mergeAll_append (A B : List ResponseSet) (hA : A ≠ []) :
    mergeAll none (A ++ B) = B.foldl mergeInfo (mergeAll none A) := by
  cases A with
  | nil => exact absurd rfl hA
  | cons i A' =>
      rw [show mergeAll none ((i :: A') ++ B) = mergeAll (some i) (A' ++ B) from rfl,
        mergeAll_some, List.foldl_append,
        show mergeAll none (i :: A') = mergeAll (some i) A' from rfl, mergeAll_some]

theorem nameFor_foldl_mergeInfo (infos : List ResponseSet) (acc : ResponseSet)
    (e : String) (h : e ∈ keys acc) :
    nameFor (infos.foldl mergeInfo acc) e = nameFor acc e := by
  induction infos generalizing acc with
  | nil => rfl
  | cons i rest ih =>
      rw [List.foldl_cons]
      rw [ih (mergeInfo acc i) (mem_keys_foldl_mergeEntry i acc e h)]
      exact nameFor_foldl_mergeEntry i acc e h

/-!
## Member lookup characterisation
-/

theorem readNameRows_cons (r : AttendanceRecord) (rows : List AttendanceRecord) :
    readNameRows (r :: rows)
      = if lowerCase r.name = "" then [] else r :: readNameRows rows := by
  by_cases h : lowerCase r.name = "" <;> simp [readNameRows, List.takeWhile_cons, h]

/-- `getNameFromSheet` returns the first read row matching the queried
name, labelled and scored as in the code. -/
theorem getNameFromSheet_eq (user : String) (s : EventSource) :
    getNameFromSheet user s
      = ((readNameRows s.records).find? (fun r => user == lowerCase r.name)).map
          (fun r =>
            (s.displayName ++ " - " ++ toString (r.bonus.getD 0 + s.defaultPoints)
              ++ (if r.bonus.getD 0 + s.defaultPoints = 1
                  then " Member Point" else " Member Points"),
             r.bonus.getD 0 + s.defaultPoints)) := by
  rw [getNameFromSheet]
  induction s.records with
  | nil => simp [getNameFromSheet.go, readNameRows]
  | cons r rest ih =>
      by_cases h1 : lowerCase r.name = ""
      · simp [getNameFromSheet.go, h1, readNameRows_cons]
      · by_cases h2 : user = lowerCase r.name
        · simp [getNameFromSheet.go, h1, h2, readNameRows_cons, List.find?_cons]
        · simp only [getNameFromSheet.go, h1, if_false, h2, readNameRows_cons,
            Bool.false_eq_true]
          rw [ih]
          have hbeq : (user == lowerCase r.name) = false := by
            rw [beq_eq_false_iff_ne]
            exact h2
          rw [List.find?_cons, hbeq]

theorem findUserLoop_eq (user : String) (sources : List EventSource) :
    findUserLoop user sources
      = (sources.filterMap (getNameFromSheet user),
         ((sources.filterMap (getNameFromSheet user)).map (fun ev => ev.2)).sum,
         (sources.filterMap (getNameFromSheet user)).length) := by
  induction sources with
  | nil => simp [findUserLoop]
  | cons s rest ih =>
      cases hg : getNameFromSheet user s with
      | some ev => simp [findUserLoop, hg, ih, List.filterMap_cons]
      | none => simp [findUserLoop, hg, ih, List.filterMap_cons]

/-!
## Email correction characterisation
-/

theorem lastFor_eq_none_iff (e : String) (rows : List AttendanceRecord) :
    lastFor e rows = none ↔ ∀ r ∈ rows, lowerCase r.email ≠ e := by
  induction rows with
  | nil => simp
  | cons r rest ih =>
      rw [lastFor_cons]
      cases hl : lastFor e rest with
      | some r' =>
          rw [hl] at ih
          constructor
          · intro hc
            exact absurd hc (by simp)
          · intro hall
            exact ih.2 (fun r'' hr'' => hall r'' (List.mem_cons_of_mem r hr''))
      | none =>
          rw [hl] at ih
          have hrest : ∀ r'' ∈ rest, lowerCase r''.email ≠ e := ih.1 rfl
          by_cases he : lowerCase r.email = e
          · rw [if_pos he]
            constructor
            · intro hc
              exact absurd hc (by simp)
            · intro hall
              exact absurd he (hall r (List.mem_cons_self r rest))
          · rw [if_neg he]
            constructor
            · intro _ r'' hr''
              rcases List.mem_cons.1 hr'' with rfl | hr''
              · exact he
              · exact hrest r'' hr''
            · intro _
              rfl

theorem map_renameEmail_id (a b : String) (rows : List AttendanceRecord)
    (h : ∀ r ∈ rows, lowerCase r.email ≠ a) :
    rows.map (renameEmail a b) = rows := by
  induction rows with
  | nil => rfl
  | cons r rest ih =>
      rw [List.map_cons, ih (fun r' hr' => h r' (List.mem_cons_of_mem r hr'))]
      rw [renameEmail, if_neg (h r (List.mem_cons_self r rest))]

theorem lowerCase_renameEmail_ne_a (a b : String) (hne : a ≠ b)
    (hb : lowerCase b = b) (r : AttendanceRecord) :
    lowerCase (renameEmail a b r).email ≠ a := by
  rw [renameEmail]
  by_cases h : lowerCase r.email = a
  · rw [if_pos h]
    show lowerCase b ≠ a
    rw [hb]
    exact fun hc => hne hc.symm
  · rw [if_neg h]
    exact h

theorem lastFor_a_map_rename (a b : String) (hne : a ≠ b) (hb : lowerCase b = b)
    (rows : List AttendanceRecord) :
    lastFor a (rows.map (renameEmail a b)) = none :=
  (lastFor_eq_none_iff a _).2 (by
    intro r' hr'
    rcases List.mem_map.1 hr' with ⟨r, _, rfl⟩
    exact lowerCase_renameEmail_ne_a a b hne hb r)

theorem lastFor_b_map_rename (a b : String) (hb : lowerCase b = b)
    (rows : List AttendanceRecord) (hnob : ∀ r ∈ rows, lowerCase r.email ≠ b) :
    lastFor b (rows.map (renameEmail a b))
      = (lastFor a rows).map (renameEmail a b) := by
  induction rows with
  | nil => rfl
  | cons r rest ih =>
      rw [List.map_cons, lastFor_cons, lastFor_cons,
        ih (fun r' hr' => hnob r' (List.mem_cons_of_mem r hr'))]
      cases hl : lastFor a rest with
      | some r' => rfl
      | none =>
          by_cases ha : lowerCase r.email = a
          · have hren : renameEmail a b r = { r with email := b } := by
              rw [renameEmail, if_pos ha]
            simp [hren, ha, hb]
          · have hren : renameEmail a b r = r := by
              rw [renameEmail, if_neg ha]
            simp [hren, ha, hnob r (List.mem_cons_self r rest)]

theorem readRows_replace (a b : String) (hb : lowerCase b = b) (hb' : b ≠ "")
    (rows : List AttendanceRecord) :
    readRows (replaceEmailRows b a rows) = (readRows rows).map (renameEmail a b) := by
  induction rows with
  | nil => rfl
  | cons r rest ih =>
      by_cases h : lowerCase r.email = ""
      · simp [replaceEmailRows, h, readRows_cons]
      · rw [show replaceEmailRows b a (r :: rest)
              = renameEmail a b r :: replaceEmailRows b a rest from by
            simp [replaceEmailRows, renameEmail, h]]
        rw [readRows_cons, readRows_cons, if_neg h]
        have hne' : lowerCase (renameEmail a b r).email ≠ "" := by
          rw [renameEmail]
          by_cases ha : lowerCase r.email = a
          · rw [if_pos ha]
            show lowerCase b ≠ ""
            rw [hb]
            exact hb'
          · rw [if_neg ha]
            exact h
        rw [if_neg hne', List.map_cons]
        rw [ih]

theorem recordPoints_renameEmail (d : Int) (a b : String) (r : AttendanceRecord) :
    recordPoints d (renameEmail a b r) = recordPoints d r := by
  rw [renameEmail]
  by_cases h : lowerCase r.email = a
  · rw [if_pos h]
    rfl
  · rw [if_neg h]

/-- The points a sheet contributes for an email, through `lastFor`. -/
theorem pointsFor_getResponses (s : EventSource) (e : String) :
    pointsFor (getResponsesFromEvent s) e
      = (lastFor e (readRecords s)).map (recordPoints s.defaultPoints) := by
  rw [pointsFor, entryFor_getResponses, Option.map_map]
  rfl

/-- Effect of `replaceEmailInSheet` on one sheet's contributions: the new
email collects what the old and new email contributed (at most one of
them non-absent), and the old email contributes nothing any more. -/
theorem pointsFor_replaceEmail (s : EventSource) (a b : String)
    (hne : a ≠ b) (hb : lowerCase b = b) (hb' : b ≠ "")
    (hsep : ¬(pointsFor (getResponsesFromEvent s) a ≠ none
              ∧ pointsFor (getResponsesFromEvent s) b ≠ none)) :
    pointsFor (getResponsesFromEvent (replaceEmailInSheet b a s)) b
        = oadd (pointsFor (getResponsesFromEvent s) a)
               (pointsFor (getResponsesFromEvent s) b)
    ∧ pointsFor (getResponsesFromEvent (replaceEmailInSheet b a s)) a = none := by
  have hread : readRecords (replaceEmailInSheet b a s)
      = (readRecords s).map (renameEmail a b) := by
    rw [replaceEmailInSheet, readRecords, readRecords]
    exact readRows_replace a b hb hb' s.records
  have hpts : ∀ e : String,
      pointsFor (getResponsesFromEvent (replaceEmailInSheet b a s)) e
        = (lastFor e ((readRecords s).map (renameEmail a b))).map
            (recordPoints s.defaultPoints) := by
    intro e
    rw [pointsFor_getResponses, hread]
    rfl
  constructor
  · by_cases hA : pointsFor (getResponsesFromEvent s) a = none
    · have hnoa : ∀ r ∈ readRecords s, lowerCase r.email ≠ a := by
        rw [pointsFor_getResponses, Option.map_eq_none', lastFor_eq_none_iff] at hA
        exact hA
      rw [hpts b, map_renameEmail_id a b _ hnoa, hA, oadd_none_left,
        pointsFor_getResponses]
    · have hB : pointsFor (getResponsesFromEvent s) b = none := by
        by_cases hB' : pointsFor (getResponsesFromEvent s) b = none
        · exact hB'
        · exact absurd ⟨hA, hB'⟩ hsep
      have hnob : ∀ r ∈ readRecords s, lowerCase r.email ≠ b := by
        rw [pointsFor_getResponses, Option.map_eq_none', lastFor_eq_none_iff] at hB
        exact hB
      rw [hpts b, lastFor_b_map_rename a b hb _ hnob, hB, oadd_none_right,
        pointsFor_getResponses]
      cases lastFor a (readRecords s) with
      | none => rfl
      | some r => simp [recordPoints_renameEmail]
  · rw [hpts a, lastFor_a_map_rename a b hne hb]
    rfl

theorem combine_map_none {α : Type} (l : List α) :
    combine (l.map (fun _ => (none : Option Int))) = none := by
  induction l with
  | nil => rfl
  | cons x xs ih =>
      rw [List.map_cons, combine_cons, ih]
      rfl

/-!
## Claim theorems
-/

/-- C4: every entry of a produced ledger follows the thresholds — total
< 3 Base, 3 ≤ total < 15 Active, 15 ≤ total Involved — except that when
the global maximum total is at least 15, every entry whose total equals
that maximum (all ties) is tagged Most-Involved; and an entry is never
Most-Involved unless its own total is at least 15, so nobody below the
15-point floor is promoted even when no entry reaches 15. -/
theorem C4_tier_classification (sources : List EventSource) (ent : LedgerEntry)
    (h : ent ∈ ledgerOf sources) :
    (ent.tier =
      if 15 ≤ ((ledgerOf sources).map LedgerEntry.totalPoints).foldl max 0
          ∧ ent.totalPoints
            = ((ledgerOf sources).map LedgerEntry.totalPoints).foldl max 0
      then Tier.MostInvolved
      else if ent.totalPoints < 3 then Tier.Base
      else if ent.totalPoints < 15 then Tier.Active
      else Tier.Involved)
    ∧ (ent.tier = Tier.MostInvolved → 15 ≤ ent.totalPoints) := by
  rw [ledger_totals]
  rw [ledgerOf, assignTiers_eq] at h
  rcases List.mem_map.1 h with ⟨x, hx, rfl⟩
  constructor
  · simp only [baseTier]
  · intro htier
    show 15 ≤ x.2.2
    simp only at htier
    split at htier
    · next hcond => omega
    · next hcond =>
        simp only [baseTier] at htier
        split at htier
        · simp at htier
        · split at htier
          · simp at htier
          · simp at htier

/-- C4 witness: a single sheet awarding 1 + 14 points yields one entry
with total 15 tagged Most-Involved, as classified by the theorem. -/
theorem C4_tier_classification_witness :
    ((⟨"Alice", "a@x.com", 15, Tier.MostInvolved⟩ : LedgerEntry)
        ∈ ledgerOf [⟨"E", 1, [⟨"Alice", "a@x.com", some 14⟩]⟩])
    ∧ (((⟨"Alice", "a@x.com", 15, Tier.MostInvolved⟩ : LedgerEntry).tier =
        if 15 ≤ ((ledgerOf [⟨"E", 1, [⟨"Alice", "a@x.com", some 14⟩]⟩]).map
                  LedgerEntry.totalPoints).foldl max 0
            ∧ (⟨"Alice", "a@x.com", 15, Tier.MostInvolved⟩ : LedgerEntry).totalPoints
              = ((ledgerOf [⟨"E", 1, [⟨"Alice", "a@x.com", some 14⟩]⟩]).map
                  LedgerEntry.totalPoints).foldl max 0
        then Tier.MostInvolved
        else if (⟨"Alice", "a@x.com", 15, Tier.MostInvolved⟩ : LedgerEntry).totalPoints < 3
          then Tier.Base
        else if (⟨"Alice", "a@x.com", 15, Tier.MostInvolved⟩ : LedgerEntry).totalPoints < 15
          then Tier.Active
        else Tier.Involved)
      ∧ ((⟨"Alice", "a@x.com", 15, Tier.MostInvolved⟩ : LedgerEntry).tier
            = Tier.MostInvolved
          → 15 ≤ (⟨"Alice", "a@x.com", 15, Tier.MostInvolved⟩ : LedgerEntry).totalPoints)) :=
  ⟨by decide, C4_tier_classification _ _ (by decide)⟩

/-- C10: every ledger entry's stored email is the lowercased form of the
email of some record of some source — whatever capitalisation the source
used — and its stored name is that record's name with its original
capitalisation preserved. -/
theorem C10_ledger_case_invariant (sources : List EventSource) (ent : LedgerEntry)
    (h : ent ∈ ledgerOf sources) :
    ∃ s ∈ sources, ∃ r ∈ s.records,
      ent.email = lowerCase r.email ∧ ent.name = r.name := by
  rw [ledgerOf, assignTiers_eq] at h
  rcases List.mem_map.1 h with ⟨x, hx, rfl⟩
  rcases mem_aggregate_shape sources x hx with ⟨s, hs, r, hr, hk, hn⟩
  refine ⟨s, hs, r, ?_, hk, hn⟩
  rw [readRecords, readRows] at hr
  exact (List.takeWhile_prefix _).sublist.subset hr

/-- C10 witness: a mixed-case source email "Alice@X.Com" is stored
lowercased while the name keeps its capitalisation. -/
theorem C10_ledger_case_invariant_witness :
    ((⟨"Alice Smith", "alice@x.com", 1, Tier.Base⟩ : LedgerEntry)
        ∈ ledgerOf [⟨"E", 1, [⟨"Alice Smith", "Alice@X.Com", none⟩]⟩])
    ∧ ∃ s ∈ ([⟨"E", 1, [⟨"Alice Smith", "Alice@X.Com", none⟩]⟩] : List EventSource),
        ∃ r ∈ s.records,
          (⟨"Alice Smith", "alice@x.com", 1, Tier.Base⟩ : LedgerEntry).email
              = lowerCase r.email
          ∧ (⟨"Alice Smith", "alice@x.com", 1, Tier.Base⟩ : LedgerEntry).name = r.name :=
  ⟨by decide, C10_ledger_case_invariant _ _ (by decide)⟩

/-- C1 (amended): for catalogs in which no sheet's read rows repeat a
normalized email, the sum of `totalPoints` across the produced ledger
equals the sum of `defaultPoints + bonusPoints` (missing bonus as 0) over
every read record of every source.  (The unamended claim fails when one
sheet repeats an email: see the counterexample.) -/
theorem C1_conservation (sources : List EventSource)
    (h : ∀ s ∈ sources, ((readRecords s).map (fun r => lowerCase r.email)).Nodup) :
    ((ledgerOf sources).map LedgerEntry.totalPoints).sum
      = (sources.map
          (fun s => ((readRecords s).map (recordPoints s.defaultPoints)).sum)).sum := by
  rw [ledger_totals]
  calc ((aggregate sources).map (fun y => y.2.2)).sum
      = pointsSum (aggregate sources) := rfl
    _ = (sources.map (fun s => pointsSum (getResponsesFromEvent s))).sum :=
        pointsSum_aggregate sources
    _ = (sources.map
          (fun s => ((readRecords s).map (recordPoints s.defaultPoints)).sum)).sum := by
        congr 1
        apply List.map_congr_left
        intro s hs
        exact pointsSum_getResponses s (h s hs)

/-- C1 witness: two sheets without repeated emails; the ledger totals
(3 + 3) match the per-record sum (1 + 3 + 2). -/
theorem C1_conservation_witness :
    (∀ s ∈ ([⟨"E", 1, [⟨"A", "a@x.com", none⟩, ⟨"B", "b@x.com", some 2⟩]⟩,
             ⟨"F", 2, [⟨"A", "A@X.com", none⟩]⟩] : List EventSource),
        ((readRecords s).map (fun r => lowerCase r.email)).Nodup)
    ∧ ((ledgerOf [⟨"E", 1, [⟨"A", "a@x.com", none⟩, ⟨"B", "b@x.com", some 2⟩]⟩,
                  ⟨"F", 2, [⟨"A", "A@X.com", none⟩]⟩]).map LedgerEntry.totalPoints).sum
      = (([⟨"E", 1, [⟨"A", "a@x.com", none⟩, ⟨"B", "b@x.com", some 2⟩]⟩,
           ⟨"F", 2, [⟨"A", "A@X.com", none⟩]⟩] : List EventSource).map
          (fun s => ((readRecords s).map (recordPoints s.defaultPoints)).sum)).sum :=
  ⟨by decide, C1_conservation _ (by decide)⟩

/-- C7 (amended): each correction operation rejects an empty required
field with the field's error message and returns the catalog unchanged —
zero writes.  (`correctEmail` does *not* reject identical old/new emails:
see the counterexample.) -/
theorem C7_empty_field_validation (oldE newE oldN newN dn de : String)
    (sources : List EventSource)
    (h₁ : lowerCase oldE = "" ∨ lowerCase newE = "")
    (h₂ : oldN = "" ∨ newN = "")
    (h₃ : lowerCase dn = "" ∨ lowerCase de = "") :
    fixEmail oldE newE sources = (sources, some "One of the fields is empty")
    ∧ fixName oldN newN sources = (sources, some "One of the fields is empty")
    ∧ deleteName dn de sources = (sources, some "One of the fields is empty") := by
  refine ⟨?_, ?_, ?_⟩
  · simp only [fixEmail]
    rw [if_pos h₁]
  · simp only [fixName]
    rw [if_pos h₂]
  · simp only [deleteName]
    rw [if_pos h₃]

/-- C7 witness: empty old-email, old-name and delete-name fields are each
rejected with the error message, leaving the one-sheet catalog untouched. -/
theorem C7_empty_field_validation_witness :
    (lowerCase "" = "" ∨ lowerCase "x@y.com" = "")
    ∧ ("" = "" ∨ "New Name" = "")
    ∧ (lowerCase "" = "" ∨ lowerCase "d@x.com" = "")
    ∧ (fixEmail "" "x@y.com" [⟨"E", 1, [⟨"A", "a@x.com", none⟩]⟩]
        = ([⟨"E", 1, [⟨"A", "a@x.com", none⟩]⟩], some "One of the fields is empty")
      ∧ fixName "" "New Name" [⟨"E", 1, [⟨"A", "a@x.com", none⟩]⟩]
        = ([⟨"E", 1, [⟨"A", "a@x.com", none⟩]⟩], some "One of the fields is empty")
      ∧ deleteName "" "d@x.com" [⟨"E", 1, [⟨"A", "a@x.com", none⟩]⟩]
        = ([⟨"E", 1, [⟨"A", "a@x.com", none⟩]⟩], some "One of the fields is empty")) :=
  ⟨by decide, by decide, by decide,
    C7_empty_field_validation _ _ _ _ _ _ _ (by decide) (by decide) (by decide)⟩

/-- C3 (amended): when some source of the catalog cannot be read, the
`updateMemberPoints` run reports failure and leaves the ledger sheet in
its cleared state — empty, not the previous contents, which were erased
before the first read; and a run only ever exposes either that cleared
sheet or the complete freshly aggregated ledger, never a partial
aggregate. -/
theorem C3_abort_leaves_cleared_sheet (catalog : List SourceHandle)
    (prev : List LedgerEntry) (h : catalogSources catalog = none) :
    updateMemberPointsRun catalog prev = ([], true)
    ∧ ∀ (catalog' : List SourceHandle) (prev' : List LedgerEntry)
        (sources : List EventSource),
        catalogSources catalog' = some sources →
        updateMemberPointsRun catalog' prev' = (ledgerOf sources, false) := by
  constructor
  · simp [updateMemberPointsRun, h]
  · intro catalog' prev' sources h'
    simp [updateMemberPointsRun, h']

/-- C3 witness: one unreadable source with a non-empty previous ledger. -/
theorem C3_abort_leaves_cleared_sheet_witness :
    catalogSources [SourceHandle.unreadable] = none
    ∧ (updateMemberPointsRun [SourceHandle.unreadable]
          [⟨"Alice", "a@x.com", 3, Tier.Active⟩] = ([], true)
      ∧ ∀ (catalog' : List SourceHandle) (prev' : List LedgerEntry)
          (sources : List EventSource),
          catalogSources catalog' = some sources →
          updateMemberPointsRun catalog' prev' = (ledgerOf sources, false)) :=
  ⟨by decide, C3_abort_leaves_cleared_sheet _ _ (by decide)⟩

/-- C8 (amended): once an email is present in the response set built from
the later-enumerated sheets (which the `ids.pop()` loop processes first),
merging the remaining sheets never overwrites its stored name — later
records only add points, and totals combine additively across the catalog
split; within a single sheet, however, a repeated email overwrites the
stored name and replaces the stored points (see the counterexample). -/
theorem C8_first_seen_merge (ss ss' : List EventSource) (e : String)
    (h : hasEmail (aggregate ss') e = true)
    (m : ResponseSet) (nm : String) (p : Int) :
    nameFor (aggregate (ss ++ ss')) e = nameFor (aggregate ss') e
    ∧ pointsFor (aggregate (ss ++ ss')) e
        = oadd (pointsFor (aggregate ss) e) (pointsFor (aggregate ss') e)
    ∧ nameFor (upsertLast m e nm p) e = some nm
    ∧ pointsFor (upsertLast m e nm p) e = some p := by
  refine ⟨?_, ?_, ?_, ?_⟩
  · by_cases hemp : ss' = []
    · subst hemp
      simp [aggregate, mergeAll, hasEmail] at h
    · have hA : (ss'.map getResponsesFromEvent).reverse ≠ [] := by
        simp [hemp]
      have hsplit : aggregate (ss ++ ss')
          = ((ss.map getResponsesFromEvent).reverse).foldl mergeInfo (aggregate ss') := by
        rw [aggregate, List.map_append, List.reverse_append,
          mergeAll_append _ _ hA, aggregate]
      rw [hsplit]
      exact nameFor_foldl_mergeInfo _ _ e ((hasEmail_iff _ e).1 h)
  · rw [pointsFor_aggregate, List.map_append, combine_append,
      ← pointsFor_aggregate, ← pointsFor_aggregate]
  · simp [nameFor, entryFor_upsertLast_self]
  · simp [pointsFor, entryFor_upsertLast_self]

/-- C8 witness: "a@x.com" is present in the later sheet (processed first,
name "Bob"); merging the earlier sheet keeps the name "Bob" and adds the
points (2 + 4), while an in-sheet upsert overwrites name and points. -/
theorem C8_first_seen_merge_witness :
    hasEmail (aggregate [⟨"B", 4, [⟨"Bob", "a@x.com", none⟩]⟩]) "a@x.com" = true
    ∧ (nameFor (aggregate ([⟨"A", 2, [⟨"Alice", "a@x.com", none⟩]⟩]
            ++ [⟨"B", 4, [⟨"Bob", "a@x.com", none⟩]⟩])) "a@x.com"
          = nameFor (aggregate [⟨"B", 4, [⟨"Bob", "a@x.com", none⟩]⟩]) "a@x.com"
      ∧ pointsFor (aggregate ([⟨"A", 2, [⟨"Alice", "a@x.com", none⟩]⟩]
            ++ [⟨"B", 4, [⟨"Bob", "a@x.com", none⟩]⟩])) "a@x.com"
          = oadd (pointsFor (aggregate [⟨"A", 2, [⟨"Alice", "a@x.com", none⟩]⟩]) "a@x.com")
                 (pointsFor (aggregate [⟨"B", 4, [⟨"Bob", "a@x.com", none⟩]⟩]) "a@x.com")
      ∧ nameFor (upsertLast [("a@x.com", "Old", 1)] "a@x.com" "New" 7) "a@x.com"
          = some "New"
      ∧ pointsFor (upsertLast [("a@x.com", "Old", 1)] "a@x.com" "New" 7) "a@x.com"
          = some 7) :=
  ⟨by decide, C8_first_seen_merge _ _ _ (by decide) _ _ _⟩

/-- C5 (amended): permuting the catalog's enumeration order yields a
ledger with the same set of emails and, for every email, the same total
and the same tier; the stored display name (and the row order) may depend
on the order — the counterexample exhibits a permutation that changes an
entry's stored name. -/
theorem C5_order_independent_totals_tiers (s₁ s₂ : List EventSource)
    (h : s₁.Perm s₂) (e : String) :
    (ledgerEntryFor (ledgerOf s₁) e).map (fun ent => (ent.totalPoints, ent.tier))
      = (ledgerEntryFor (ledgerOf s₂) e).map (fun ent => (ent.totalPoints, ent.tier)) := by
  have hp := pointsFor_aggregate_perm h e
  have hM := maxTotal_aggregate_perm h
  rw [ledgerEntryFor_eq, ledgerEntryFor_eq, hM]
  simp only [pointsFor] at hp
  cases h₁ : entryFor (aggregate s₁) e with
  | none =>
      have h₂ : entryFor (aggregate s₂) e = none := by
        rw [h₁] at hp
        cases h₂ : entryFor (aggregate s₂) e with
        | none => rfl
        | some y => rw [h₂] at hp; simp at hp
      rw [h₂]
  | some x =>
      have h₂ : ∃ y, entryFor (aggregate s₂) e = some y ∧ y.2.2 = x.2.2 := by
        rw [h₁] at hp
        cases h₂ : entryFor (aggregate s₂) e with
        | none => rw [h₂] at hp; simp at hp
        | some y =>
            rw [h₂] at hp
            simp at hp
            exact ⟨y, rfl, hp.symm⟩
      rcases h₂ with ⟨y, h₂, hyx⟩
      rw [h₂]
      simp [hyx]

/-- C5 witness: swapping two sheets with distinct emails leaves every
email's total and tier unchanged. -/
theorem C5_order_independent_totals_tiers_witness :
    ([⟨"A", 2, [⟨"Alice", "a@x.com", none⟩]⟩, ⟨"B", 4, [⟨"Bob", "b@x.com", none⟩]⟩] :
        List EventSource).Perm
      [⟨"B", 4, [⟨"Bob", "b@x.com", none⟩]⟩, ⟨"A", 2, [⟨"Alice", "a@x.com", none⟩]⟩]
    ∧ (ledgerEntryFor (ledgerOf [⟨"A", 2, [⟨"Alice", "a@x.com", none⟩]⟩,
          ⟨"B", 4, [⟨"Bob", "b@x.com", none⟩]⟩]) "a@x.com").map
        (fun ent => (ent.totalPoints, ent.tier))
      = (ledgerEntryFor (ledgerOf [⟨"B", 4, [⟨"Bob", "b@x.com", none⟩]⟩,
          ⟨"A", 2, [⟨"Alice", "a@x.com", none⟩]⟩]) "a@x.com").map
        (fun ent => (ent.totalPoints, ent.tier)) :=
  ⟨by decide, C5_order_independent_totals_tiers _ _ (by decide) _⟩

/-- C9 (amended): for a non-empty query, `findUser` returns one breakdown
entry per source whose read rows contain a matching normalized name — the
entry derived from the *first* such record, with `points = bonusPoints +
defaultPoints` and the singular/plural "Member Point(s)" label — plus the
sum of those entry points and their count; a name matching no source gives
an empty breakdown and total 0.  (The original per-record completeness
fails when one sheet holds two matching rows: see the counterexample.) -/
theorem C9_lookup_breakdown (user : String) (sources : List EventSource)
    (h : lowerCase user ≠ "") :
    findUser user sources
      = some (sources.filterMap (getNameFromSheet (lowerCase user)),
          ((sources.filterMap (getNameFromSheet (lowerCase user))).map
            (fun ev => ev.2)).sum,
          (sources.filterMap (getNameFromSheet (lowerCase user))).length)
    ∧ ∀ s : EventSource,
        getNameFromSheet (lowerCase user) s
          = ((readNameRows s.records).find?
              (fun r => lowerCase user == lowerCase r.name)).map
              (fun r =>
                (s.displayName ++ " - " ++ toString (r.bonus.getD 0 + s.defaultPoints)
                  ++ (if r.bonus.getD 0 + s.defaultPoints = 1
                      then " Member Point" else " Member Points"),
                 r.bonus.getD 0 + s.defaultPoints)) := by
  constructor
  · simp only [findUser]
    rw [if_neg h, findUserLoop_eq]
  · intro s
    exact getNameFromSheet_eq (lowerCase user) s

/-- C9 witness: Carol attended two of three sheets (for 1 and 2 points);
the breakdown has those two entries and total 3. -/
theorem C9_lookup_breakdown_witness :
    lowerCase "Carol Lee" ≠ ""
    ∧ (findUser "Carol Lee"
          [⟨"EvA", 1, [⟨"Carol Lee", "c@x.com", none⟩]⟩,
           ⟨"EvB", 3, [⟨"Dan", "d@x.com", none⟩]⟩,
           ⟨"EvC", 1, [⟨"Carol Lee", "c@x.com", some 1⟩]⟩]
        = some (([⟨"EvA", 1, [⟨"Carol Lee", "c@x.com", none⟩]⟩,
             ⟨"EvB", 3, [⟨"Dan", "d@x.com", none⟩]⟩,
             ⟨"EvC", 1, [⟨"Carol Lee", "c@x.com", some 1⟩]⟩] :
              List EventSource).filterMap (getNameFromSheet (lowerCase "Carol Lee")),
            ((([⟨"EvA", 1, [⟨"Carol Lee", "c@x.com", none⟩]⟩,
             ⟨"EvB", 3, [⟨"Dan", "d@x.com", none⟩]⟩,
             ⟨"EvC", 1, [⟨"Carol Lee", "c@x.com", some 1⟩]⟩] :
              List EventSource).filterMap (getNameFromSheet (lowerCase "Carol Lee"))).map
              (fun ev => ev.2)).sum,
            (([⟨"EvA", 1, [⟨"Carol Lee", "c@x.com", none⟩]⟩,
             ⟨"EvB", 3, [⟨"Dan", "d@x.com", none⟩]⟩,
             ⟨"EvC", 1, [⟨"Carol Lee", "c@x.com", some 1⟩]⟩] :
              List EventSource).filterMap (getNameFromSheet (lowerCase "Carol Lee"))).length)
      ∧ ∀ s : EventSource,
          getNameFromSheet (lowerCase "Carol Lee") s
            = ((readNameRows s.records).find?
                (fun r => lowerCase "Carol Lee" == lowerCase r.name)).map
                (fun r =>
                  (s.displayName ++ " - " ++ toString (r.bonus.getD 0 + s.defaultPoints)
                    ++ (if r.bonus.getD 0 + s.defaultPoints = 1
                        then " Member Point" else " Member Points"),
                   r.bonus.getD 0 + s.defaultPoints))) :=
  ⟨by decide, C9_lookup_breakdown _ _ (by decide)⟩

/-- C6: if the normalized email `a` has accumulated 2 points and `b`
independently 4 points in different events (no sheet contributes to both),
then `fixEmail a b` followed by re-aggregation yields exactly one ledger
entry for `b`, carrying 6 points, and no entry for `a`. -/
theorem C6_merge_on_rename (sources : List EventSource) (a b : String)
    (hne : a ≠ b) (ha : lowerCase a = a) (hb : lowerCase b = b)
    (ha' : a ≠ "") (hb' : b ≠ "")
    (hsep : ∀ s ∈ sources, ¬(pointsFor (getResponsesFromEvent s) a ≠ none
              ∧ pointsFor (getResponsesFromEvent s) b ≠ none))
    (h2 : pointsFor (aggregate sources) a = some 2)
    (h4 : pointsFor (aggregate sources) b = some 4)
    (sources' : List EventSource)
    (hfix : fixEmail a b sources = (sources', none)) :
    ((ledgerOf sources').filter (fun ent => ent.email == b)).map
        LedgerEntry.totalPoints = [6]
    ∧ (ledgerOf sources').filter (fun ent => ent.email == a) = [] := by
  have hs' : sources' = sources.map (replaceEmailInSheet b a) := by
    simp only [fixEmail, ha, hb] at hfix
    rw [if_neg (not_or.2 ⟨ha', hb'⟩)] at hfix
    exact ((Prod.ext_iff.1 hfix).1).symm
  subst hs'
  have hmapb : List.map ((fun s => pointsFor (getResponsesFromEvent s) b)
        ∘ replaceEmailInSheet b a) sources
      = List.map (fun s => oadd (pointsFor (getResponsesFromEvent s) a)
          (pointsFor (getResponsesFromEvent s) b)) sources :=
    List.map_congr_left
      (fun s hs => (pointsFor_replaceEmail s a b hne hb hb' (hsep s hs)).1)
  have hmapa : List.map ((fun s => pointsFor (getResponsesFromEvent s) a)
        ∘ replaceEmailInSheet b a) sources
      = List.map (fun _ => (none : Option Int)) sources :=
    List.map_congr_left
      (fun s hs => (pointsFor_replaceEmail s a b hne hb hb' (hsep s hs)).2)
  have hb6 : pointsFor (aggregate (sources.map (replaceEmailInSheet b a))) b
      = some 6 := by
    rw [pointsFor_aggregate, List.map_map, hmapb, combine_map_oadd,
      ← pointsFor_aggregate, ← pointsFor_aggregate, h2, h4]
    rfl
  have ha0 : pointsFor (aggregate (sources.map (replaceEmailInSheet b a))) a
      = none := by
    rw [pointsFor_aggregate, List.map_map, hmapa, combine_map_none]
  have hnd := nodup_ledger_emails (sources.map (replaceEmailInSheet b a))
  constructor
  · rw [ledger_filter_by_email _ hnd b,
      show (ledgerOf (sources.map (replaceEmailInSheet b a))).find?
          (fun ent => ent.email == b)
        = ledgerEntryFor (ledgerOf (sources.map (replaceEmailInSheet b a))) b from rfl,
      ledgerEntryFor_eq]
    have hsome : ∃ x, entryFor (aggregate (sources.map (replaceEmailInSheet b a))) b
        = some x ∧ x.2.2 = 6 := by
      rw [pointsFor] at hb6
      cases hx : entryFor (aggregate (sources.map (replaceEmailInSheet b a))) b with
      | none => rw [hx] at hb6; simp at hb6
      | some x =>
          rw [hx] at hb6
          simp at hb6
          exact ⟨x, rfl, hb6⟩
    rcases hsome with ⟨x, hx, hx6⟩
    rw [hx]
    simp [hx6]
  · rw [ledger_filter_by_email _ hnd a,
      show (ledgerOf (sources.map (replaceEmailInSheet b a))).find?
          (fun ent => ent.email == a)
        = ledgerEntryFor (ledgerOf (sources.map (replaceEmailInSheet b a))) a from rfl,
      ledgerEntryFor_eq]
    have hnone : entryFor (aggregate (sources.map (replaceEmailInSheet b a))) a
        = none := by
      rw [pointsFor] at ha0
      cases hx : entryFor (aggregate (sources.map (replaceEmailInSheet b a))) a with
      | none => rfl
      | some x => rw [hx] at ha0; simp at ha0
    rw [hnone]
    rfl

/-- C6 witness: "alice@x.com" holds 2 points in sheet A, "alice2@x.com"
holds 4 points in sheet B; after `fixEmail` and recompute the single
entry for "alice2@x.com" carries 6 points and none remains for
"alice@x.com". -/
theorem C6_merge_on_rename_witness :
    ("alice@x.com" ≠ "alice2@x.com"
      ∧ lowerCase "alice@x.com" = "alice@x.com"
      ∧ lowerCase "alice2@x.com" = "alice2@x.com"
      ∧ "alice@x.com" ≠ "" ∧ "alice2@x.com" ≠ ""
      ∧ (∀ s ∈ ([⟨"A", 2, [⟨"Alice", "alice@x.com", none⟩]⟩,
                 ⟨"B", 4, [⟨"Al", "alice2@x.com", none⟩]⟩] : List EventSource),
          ¬(pointsFor (getResponsesFromEvent s) "alice@x.com" ≠ none
            ∧ pointsFor (getResponsesFromEvent s) "alice2@x.com" ≠ none))
      ∧ pointsFor (aggregate [⟨"A", 2, [⟨"Alice", "alice@x.com", none⟩]⟩,
            ⟨"B", 4, [⟨"Al", "alice2@x.com", none⟩]⟩]) "alice@x.com" = some 2
      ∧ pointsFor (aggregate [⟨"A", 2, [⟨"Alice", "alice@x.com", none⟩]⟩,
            ⟨"B", 4, [⟨"Al", "alice2@x.com", none⟩]⟩]) "alice2@x.com" = some 4
      ∧ fixEmail "alice@x.com" "alice2@x.com"
            [⟨"A", 2, [⟨"Alice", "alice@x.com", none⟩]⟩,
             ⟨"B", 4, [⟨"Al", "alice2@x.com", none⟩]⟩]
          = ([⟨"A", 2, [⟨"Alice", "alice2@x.com", none⟩]⟩,
              ⟨"B", 4, [⟨"Al", "alice2@x.com", none⟩]⟩], none))
    ∧ (((ledgerOf [⟨"A", 2, [⟨"Alice", "alice2@x.com", none⟩]⟩,
            ⟨"B", 4, [⟨"Al", "alice2@x.com", none⟩]⟩]).filter
          (fun ent => ent.email == "alice2@x.com")).map LedgerEntry.totalPoints = [6]
      ∧ (ledgerOf [⟨"A", 2, [⟨"Alice", "alice2@x.com", none⟩]⟩,
            ⟨"B", 4, [⟨"Al", "alice2@x.com", none⟩]⟩]).filter
          (fun ent => ent.email == "alice@x.com") = []) :=
  ⟨⟨by decide, by decide, by decide, by decide, by decide, by decide, by decide,
      by decide, by decide⟩,
    C6_merge_on_rename
      ([⟨"A", 2, [⟨"Alice", "alice@x.com", none⟩]⟩,
        ⟨"B", 4, [⟨"Al", "alice2@x.com", none⟩]⟩] : List EventSource)
      "alice@x.com" "alice2@x.com" (by decide) (by decide) (by decide) (by decide)
      (by decide) (by decide) (by decide) (by decide)
      ([⟨"A", 2, [⟨"Alice", "alice2@x.com", none⟩]⟩,
        ⟨"B", 4, [⟨"Al", "alice2@x.com", none⟩]⟩] : List EventSource)
      (by decide)⟩

end AttendanceTracker
